import Mathlib

/-!
Shallow embedding of the expression front end of `libast` (src/libast.c).

The C library builds an abstract syntax tree from an infix expression by
feeding tokens, one at a time, into a growing tree of heap-allocated nodes
that carry `parent`/`left`/`right` pointers, and later evaluates the tree.

Modelling decisions, all noted at the definition they concern:
* The node heap is a `List (Option Node)`; an index is a pointer, `none` is a
  freed cell, and reading a freed or out-of-range cell (undefined behaviour
  in C) yields a fixed default node.
* `malloc`/`realloc` are modelled as always succeeding, so the
  `AST_ERR_MEMORY` branches of the source are unreachable in the model and
  omitted where they would follow an allocation.
* C loops over parent pointers get an explicit fuel argument; every run in
  this file uses fuel larger than the heap, which the loops never exhaust.
* `long` is `Int` (no claim exercises integer overflow), `int` bounds such
  as `INT_MAX` are kept as explicit constants.
* The floating-point routed operations of the evaluators (`sqrt`, `log`,
  `log10`, `pow`) are abstracted as parameters, since their values depend on
  libm; no claim depends on their values.
-/

namespace Libast

/-- Token kinds, mirroring the C enumeration `ast_tok_t`. -/
inductive ast_tok where
  | UNDEF | PLUS | MINUS | MUL | DIV | POW | NEG | AND | OR | EQ | NEQ
  | GT | GE | LT | LE | NOT | PAREN_LEFT | PAREN_RIGHT | SQRT | LN | LOG
  | NUM | VAR
deriving DecidableEq, Repr

/-- Token categories, mirroring the C enumeration `ast_tok_type_t`
(`AST_TOKT_NULL` is rendered `NULLT`). -/
inductive ast_tok_type where
  | NULLT | UOPT | BOPT | PAREN | FUNC | VALUE
deriving DecidableEq, Repr

/-- Per-token attributes, mirroring the C struct `ast_tok_attr_t`. -/
structure ast_tok_attr_t where
  type : ast_tok_type
  precedence : Int
  argc : Nat
deriving DecidableEq, Repr

/-- The constant attribute table `ast_tok_attr[]` of the source, entry by
entry. -/
def ast_tok_attr : ast_tok → ast_tok_attr_t
  | .UNDEF       => ⟨.NULLT, -1, 1⟩
  | .PLUS        => ⟨.BOPT,   4, 2⟩
  | .MINUS       => ⟨.BOPT,   4, 2⟩
  | .MUL         => ⟨.BOPT,   5, 2⟩
  | .DIV         => ⟨.BOPT,   5, 2⟩
  | .POW         => ⟨.BOPT,   6, 2⟩
  | .NEG         => ⟨.UOPT,   8, 1⟩
  | .AND         => ⟨.BOPT,   1, 2⟩
  | .OR          => ⟨.BOPT,   0, 2⟩
  | .EQ          => ⟨.BOPT,   2, 2⟩
  | .NEQ         => ⟨.BOPT,   2, 2⟩
  | .GT          => ⟨.BOPT,   3, 2⟩
  | .GE          => ⟨.BOPT,   3, 2⟩
  | .LT          => ⟨.BOPT,   3, 2⟩
  | .LE          => ⟨.BOPT,   3, 2⟩
  | .NOT         => ⟨.UOPT,   7, 1⟩
  | .PAREN_LEFT  => ⟨.PAREN, -1, 2⟩
  | .PAREN_RIGHT => ⟨.PAREN, -1, 2⟩
  | .SQRT        => ⟨.FUNC,   9, 1⟩
  | .LN          => ⟨.FUNC,   9, 1⟩
  | .LOG         => ⟨.FUNC,   9, 1⟩
  | .NUM         => ⟨.VALUE, 99, 0⟩
  | .VAR         => ⟨.VALUE, 99, 0⟩

/-- The data-type selector `ast_dtype_t` of libast.h. -/
inductive ast_dtype where
  | DOUBLE | LONG
deriving DecidableEq, Repr

/-- Error codes, as in libast.c. -/
def AST_ERR_MEMORY : Int := -1
def AST_ERR_INIT : Int := -2
def AST_ERR_STRING : Int := -3
def AST_ERR_TOKEN : Int := -4
def AST_ERR_EXIST : Int := -5
def AST_ERR_NOEXP : Int := -6
def AST_ERR_VAR : Int := -7
def AST_ERR_VALUE : Int := -8
def AST_ERR_SIZE : Int := -9
def AST_ERR_EVAL : Int := -10
def AST_ERR_NVAR : Int := -11
def AST_ERR_UNKNOWN : Int := -99

/-- `LONG_MAX` of a 64-bit platform, used by the variable-index overflow
checks of `ast_parse_token`. -/
def LONG_MAX : Int := 9223372036854775807

/-- `INT_MAX`, the capacity limit of the variable-index set. -/
def INT_MAX : Int := 2147483647

/-- The configurable variable-marker characters of libast.h
(`AST_VAR_FLAG`, `AST_VAR_START`, `AST_VAR_END`). -/
def AST_VAR_FLAG : Char := '$'

/-- `AST_VAR_START` = `{`. -/
def AST_VAR_START : Char := Char.ofNat 123

/-- `AST_VAR_END` = `}`. -/
def AST_VAR_END : Char := Char.ofNat 125

/-- C `isspace` on the default locale: space, tab, newline, vertical tab,
form feed, carriage return. -/
def c_isspace (c : Char) : Bool :=
  c = ' ' ∨ c = Char.ofNat 9 ∨ c = Char.ofNat 10 ∨ c = Char.ofNat 11 ∨
  c = Char.ofNat 12 ∨ c = Char.ofNat 13

/-- `ast_skip_space`: advance the cursor past whitespace.  The cursor into
the NUL-terminated C string is modelled as the remaining suffix. -/
def ast_skip_space : List Char → List Char
  | [] => []
  | c :: cs => if c_isspace c then ast_skip_space cs else c :: cs

/-- Read the character `i` places ahead of the cursor; past the end of the
string this is the terminating NUL, as in C. -/
def peek (s : List Char) (i : Nat) : Char := (s.get? i).getD (Char.ofNat 0)

/-- One tree node: token kind, numeric payload (the `ast_value_t` union read
through its `long` member; no claim depends on double payloads), and the
parent/left/right pointers of `ast_node_t`. -/
structure Node where
  type : ast_tok
  value : Int
  parent : Option Nat
  left : Option Nat
  right : Option Nat
deriving DecidableEq, Repr

/-- The node returned when reading a freed or out-of-range cell; such reads
are undefined behaviour in C and never happen in the runs of this file. -/
def nodeDefault : Node := ⟨.UNDEF, 0, none, none, none⟩

/-- The allocator heap: cell `i` is the node at address `i`, `none` once
freed. -/
abbrev Heap := List (Option Node)

/-- Dereference a node pointer. -/
def readNode (h : Heap) (i : Nat) : Node :=
  ((List.get? h i).bind id).getD nodeDefault

/-- Store a node through a pointer (no-op out of range, which never occurs
in the runs of this file). -/
def writeNode (h : Heap) (i : Nat) (n : Node) : Heap :=
  List.set h i (some n)

/-- `free` a node. -/
def freeNode (h : Heap) (i : Nat) : Heap :=
  List.set h i none

/-- A live (allocated, not freed) cell. -/
def liveAt (h : Heap) (i : Nat) (n : Node) : Prop :=
  List.get? h i = some (some n)

/-- The number of non-null children of a node, as computed at the top of
`ast_parse_token` (`argc`). -/
def nodeArgc (n : Node) : Nat :=
  (if n.left.isSome then 1 else 0) + (if n.right.isSome then 1 else 0)

/-- `ast_root`: follow parent links to the root (fuel-bounded). -/
def ast_root (h : Heap) : Nat → Nat → Nat
  | 0, n => n
  | fuel + 1, n =>
    match (readNode h n).parent with
    | none => n
    | some p => ast_root h fuel p

/-- The copy step of `ast_delete`: the parenthesis node `n` takes over the
token, value and children of its left child `tn`, keeping its own parent
link. -/
def spliceNode (n tn : Node) : Node :=
  { n with type := tn.type, value := tn.value, left := tn.left, right := tn.right }

/-- `ast_delete`: splice out a parenthesis node once its matching right
parenthesis is parsed.  The node takes over the contents of its (only) left
child, which is then freed; the child's own children are adopted but — as in
the source — their parent links are not updated.  With no left child the C
code would dereference NULL; the caller guarantees one. -/
def ast_delete (h : Heap) (i : Nat) : Heap :=
  match (readNode h i).left with
  | none => h
  | some t =>
    let tn := readNode h t
    let n := readNode h i
    let h1 := writeNode h i (spliceNode n tn)
    freeNode h1 t

/-- The ancestor walk of `ast_insert`: starting from the current node, move
to the parent while it exists, is not a left parenthesis, is not a function,
and its precedence is at least `p`. -/
def ast_climb (h : Heap) : Nat → Nat → Int → Nat
  | 0, n, _ => n
  | fuel + 1, n, p =>
    match (readNode h n).parent with
    | none => n
    | some q =>
      let qn := readNode h q
      if qn.type = .PAREN_LEFT then n
      else if (ast_tok_attr qn.type).type = .FUNC then n
      else if p ≤ (ast_tok_attr qn.type).precedence then ast_climb h fuel q p
      else n

/-- `ast_insert`: insert a token into the tree at the current node `cur` and
return the new heap and the inserted node (the new current node).

As in the source: an `UNDEF` placeholder is overwritten in place; a binary
operator climbs with `ast_climb` and is grafted above the stopping node —
note that when the stopping node has a parent, the stopping node's own
parent link is left unchanged (the source omits that update); any other
token becomes the left (else right) child of the current node. -/
def ast_insert (h : Heap) (cur : Nat) (tok : ast_tok) (v : Int) : Heap × Nat :=
  let n := readNode h cur
  if n.type = .UNDEF then
    (writeNode h cur { n with type := tok, value := v }, cur)
  else
    let newId := h.length
    let h1 : Heap := h ++ [some ⟨tok, v, none, none, none⟩]
    if (ast_tok_attr tok).type = .BOPT then
      let stop := ast_climb h1 (List.length h1) cur (ast_tok_attr tok).precedence
      let sn := readNode h1 stop
      let h2 := writeNode h1 newId { readNode h1 newId with left := some stop }
      match sn.parent with
      | some par =>
        let h3 := writeNode h2 newId { readNode h2 newId with parent := some par }
        let pn := readNode h3 par
        let h4 :=
          if pn.left = some stop then writeNode h3 par { pn with left := some newId }
          else writeNode h3 par { pn with right := some newId }
        (h4, newId)
      | none =>
        (writeNode h2 stop { sn with parent := some newId }, newId)
    else
      if n.left = none then
        let h2 := writeNode h1 cur { n with left := some newId }
        (writeNode h2 newId { readNode h2 newId with parent := some cur }, newId)
      else
        let h2 := writeNode h1 cur { n with right := some newId }
        (writeNode h2 newId { readNode h2 newId with parent := some cur }, newId)

/-- Read `arr[i]` of the variable-index array; the binary search only ever
indexes in range. -/
def arrGet (arr : List Int) (i : Int) : Int :=
  (List.get? arr i.toNat).getD 0

/-- The loop of `ast_bin_search`, fuel-bounded (the interval shrinks every
iteration, so fuel `num + 1` is never exhausted). -/
def ast_bin_search_loop (arr : List Int) (v : Int) : Nat → Int → Int → Int
  | 0, l, _ => l
  | fuel + 1, l, u =>
    if l ≤ u then
      let i := (l + u) / 2
      if arrGet arr i < v then ast_bin_search_loop arr v fuel (i + 1) u
      else if v < arrGet arr i then ast_bin_search_loop arr v fuel l (i - 1)
      else -1
    else l

/-- `ast_bin_search`: `-1` if `v` is already in the sorted array, else the
index where it is to be inserted. -/
def ast_bin_search (arr : List Int) (num : Int) (v : Int) : Int :=
  ast_bin_search_loop arr v (num.toNat + 1) 0 (num - 1)

/-- `ast_record_var`: record a variable index in the sorted set if absent.
Returns the new set and an error code (`0`, or `AST_ERR_NVAR` when the set
already holds `INT_MAX` entries).  A NULL `vidx` array corresponds to the
empty list; the capacity bookkeeping of the source (doubling `realloc`,
which is modelled as always succeeding) has no observable effect and is
omitted.  The `memmove`-and-store insertion is `take ++ [idx] ++ drop`. -/
def ast_record_var (vidx : List Int) (idx : Int) : List Int × Int :=
  let pos := if vidx.isEmpty then 0 else ast_bin_search vidx (vidx.length : Int) idx
  if pos < 0 then (vidx, 0)
  else if (vidx.length : Int) = INT_MAX then (vidx, AST_ERR_NVAR)
  else (vidx.take pos.toNat ++ idx :: vidx.drop pos.toNat, 0)

/-- Result of the token-classification `switch` of `ast_parse_token`: the
recognised token with its value payload and the cursor as left by the
`switch` body (the common `c++` that follows for non-number tokens is
applied by the caller), or the early-return token error raised on overflow
of a `${...}` variable index. -/
inductive ClassifyRes where
  | ok (tok : ast_tok) (v : Int) (rest : List Char)
  | err (msg : String)
deriving DecidableEq, Repr

/-- The digit loop of the `${N}` variable form, with the source's two
`LONG_MAX` overflow checks; `none` signals the overflow early return. -/
def parse_var_index : List Char → Int → Option (Int × List Char)
  | [], idx => some (idx, [])
  | c :: cs, idx =>
    if c.isDigit then
      let digit : Int := (c.toNat : Int) - ('0'.toNat : Int)
      if LONG_MAX / 10 < idx then none
      else
        let idx1 := idx * 10
        if LONG_MAX - digit < idx1 then none
        else parse_var_index cs (idx1 + digit)
    else some (idx, c :: cs)

/-- The token-classification `switch` of `ast_parse_token`, dispatching on
the first character of the remaining input (which the caller guarantees to
be non-empty and non-space).  `argcGe` is the condition
`argc >= ast_tok_attr[node->type].argc` consulted by the `-` case.
Note the source's `case '=': if (*(++c) == '=') tok = AST_TOK_OR;`
(line 557): the `==` digraph is wired to the OR token. -/
def ast_classify (dt : ast_dtype) (argcGe : Bool) (c : List Char) : ClassifyRes :=
  match c with
  | [] => .ok .UNDEF 0 c
  | ch :: _ =>
    if ch.isDigit then .ok .NUM 0 c
    else if (ch = '.' ∨ ch = 'i' ∨ ch = 'I' ∨ ch = 'n' ∨ ch = 'N') ∧ dt = .DOUBLE then
      .ok .NUM 0 c
    else if ch = AST_VAR_FLAG then
      if '1' ≤ peek c 1 ∧ peek c 1 ≤ '9' then
        .ok .VAR ((peek c 1).toNat - '1'.toNat : Int) (c.drop 1)
      else if peek c 1 = AST_VAR_START then
        match parse_var_index (c.drop 2) 0 with
        | none => .err "the variable index is too large"
        | some (idx, rest) =>
          if 0 < idx ∧ peek rest 0 = AST_VAR_END then .ok .VAR (idx - 1) rest
          else .ok .UNDEF 0 rest
      else .ok .UNDEF 0 (c.drop 1)
    else if ch = '+' then .ok .PLUS 0 c
    else if ch = '-' then (if argcGe then .ok .MINUS 0 c else .ok .NEG 0 c)
    else if ch = '*' then .ok .MUL 0 c
    else if ch = '/' then .ok .DIV 0 c
    else if ch = '^' then .ok .POW 0 c
    else if ch = '&' then
      (if peek c 1 = '&' then .ok .AND 0 (c.drop 1) else .ok .UNDEF 0 (c.drop 1))
    else if ch = '|' then
      (if peek c 1 = '|' then .ok .OR 0 (c.drop 1) else .ok .UNDEF 0 (c.drop 1))
    else if ch = '=' then
      (if peek c 1 = '=' then .ok .OR 0 (c.drop 1) else .ok .UNDEF 0 (c.drop 1))
    else if ch = '!' then
      (if peek c 1 = '=' then .ok .NEQ 0 (c.drop 1) else .ok .NOT 0 c)
    else if ch = '>' then
      (if peek c 1 = '=' then .ok .GE 0 (c.drop 1) else .ok .GT 0 c)
    else if ch = '<' then
      (if peek c 1 = '=' then .ok .LE 0 (c.drop 1) else .ok .LT 0 c)
    else if ch = '(' then .ok .PAREN_LEFT 0 c
    else if ch = ')' then .ok .PAREN_RIGHT 0 c
    else if ch = 's' then
      if peek c 1 = 'q' ∧ peek c 2 = 'r' ∧ peek c 3 = 't' ∧ peek c 4 = '(' then
        .ok .SQRT 0 (c.drop 4)
      else .ok .UNDEF 0 c
    else if ch = 'l' then
      if peek c 1 = 'n' ∧ peek c 2 = '(' then .ok .LN 0 (c.drop 2)
      else if peek c 1 = 'o' ∧ peek c 2 = 'g' ∧ peek c 3 = '(' then .ok .LOG 0 (c.drop 3)
      else .ok .UNDEF 0 c
    else .ok .UNDEF 0 c

/-- The digit loop of `strtol` (base 10). -/
def strtol_digits : List Char → Int → Int × List Char
  | [], acc => (acc, [])
  | c :: cs, acc =>
    if c.isDigit then strtol_digits cs (acc * 10 + ((c.toNat : Int) - ('0'.toNat : Int)))
    else (acc, c :: cs)

/-- `ast_parse_num`: convert the numeric token at the cursor.  The source
calls `strtol` for `LONG` and `strtod` for `DOUBLE`; both are modelled as
parsing a maximal decimal-digit prefix, which is exact for `strtol` here
(the dispatch guarantees no sign and no leading space).  The `DOUBLE`-only
literal forms (fractions, exponents, `inf`, `nan`) are not modelled — every
run in this file uses `LONG`.  `none` is the "no character parsed" token
error. -/
def ast_parse_num (s : List Char) : Option (Int × List Char) :=
  match s with
  | [] => none
  | c :: _ => if c.isDigit then some (strtol_digits s 0) else none

/-- The handle state: `ast_t` together with its `ast_error_t` carrier.
`root` is `ast->ast` (the root-node pointer), `vidx` the variable-index
array (`nvar` is its length; a NULL array is the empty list), `errno` and
`errMsg` the error carrier's code and message.  The carrier's diagnostic
`str`/`eptr` pointers, used only by `ast_perror`, are not modelled — no
claim concerns the caret diagnostic. -/
structure ast_state where
  dtype : ast_dtype
  vidx : List Int
  root : Option Nat
  heap : Heap
  errno : Int
  errMsg : Option String
deriving DecidableEq, Repr

/-- A freshly initialised handle, as left by `ast_init`. -/
def ast_fresh : ast_state :=
  ⟨.DOUBLE, [], none, [], 0, none⟩

/-- The `do node = node->parent; while (node && node->type != PAREN_LEFT &&
... != FUNC);` walk used both at end of string and on a right parenthesis:
the nearest strict ancestor that is a left parenthesis or a function, or
`none` when the walk runs off the root. -/
def ast_paren_walk (h : Heap) : Nat → Nat → Option Nat
  | 0, _ => none
  | fuel + 1, n =>
    match (readNode h n).parent with
    | none => none
    | some p =>
      let pn := readNode h p
      if pn.type = .PAREN_LEFT ∨ (ast_tok_attr pn.type).type = .FUNC then some p
      else ast_paren_walk h fuel p

/-- The end-of-string handling of `ast_parse_token` (libast.c:472-487):
when the current node's filled arity falls short of its declared arity the
expression is incomplete; then the open-parenthesis walk runs (its message
overwriting the former), flagging an unclosed parenthesis or function
scope.  `argcLt` is the condition `argc < ast_tok_attr[node->type].argc`
computed by the caller. -/
def ast_parse_end (st : ast_state) (node : Nat) (argcLt : Bool) : ast_state :=
  let st1 :=
    if argcLt then
      { st with errMsg := some "incomplete expression", errno := AST_ERR_TOKEN }
    else st
  match ast_paren_walk st1.heap (st1.heap.length + 1) node with
  | some _ =>
    { st1 with errMsg := some "unclosed parenthesis", errno := AST_ERR_TOKEN }
  | none => st1

/-- The message selection after the classification `switch`
(libast.c:600-615): "unrecognised token" for an unclassified token, then —
depending on whether the current node is saturated — "missing operator"
for a value-like token or "missing value" for a binary operator or right
parenthesis, each later message overwriting the earlier. -/
def ast_msg_sel (tok : ast_tok) (argcGe : Bool) (st : ast_state) : ast_state :=
  let st1 :=
    if tok = .UNDEF then { st with errMsg := some "unrecognised token" } else st
  if argcGe then
    if tok = .PAREN_LEFT ∨ (ast_tok_attr tok).type = .UOPT ∨
        (ast_tok_attr tok).type = .FUNC ∨ (ast_tok_attr tok).type = .VALUE then
      { st1 with errMsg := some "missing operator" }
    else st1
  else
    if tok = .PAREN_RIGHT ∨ (ast_tok_attr tok).type = .BOPT then
      { st1 with errMsg := some "missing value" }
    else st1

/-- The right-parenthesis validation and splice (libast.c:617-629), run
before the message check, so a splice can happen on a path that then
errors out.  `ntype` is the current node's token kind.  Returns the new
state and the new current node (the spliced or retained scope node, or the
unchanged current node). -/
def ast_rparen_step (st2 : ast_state) (node : Nat) (ntype : ast_tok)
    (tok : ast_tok) : ast_state × Nat :=
  if tok = .PAREN_RIGHT then
    if ntype = .PAREN_LEFT then
      ({ st2 with errMsg := some "empty parenthesis" }, node)
    else
      match ast_paren_walk st2.heap (st2.heap.length + 1) node with
      | none => ({ st2 with errMsg := some "unbalanced parenthesis" }, node)
      | some m =>
        if (readNode st2.heap m).type = .PAREN_LEFT then
          ({ st2 with heap := ast_delete st2.heap m }, m)
        else (st2, m)
  else (st2, node)

/-- Insertion of a classified non-right-parenthesis token
(libast.c:646-655): push the node into the tree, then record the variable
index when the token is a `VAR` (`ast_record_var` stores its error code in
the handle).  Returns the new state and the inserted node. -/
def ast_insert_step (st3 : ast_state) (node2 : Nat) (tok : ast_tok)
    (v2 : Int) : ast_state × Nat :=
  let ins := ast_insert st3.heap node2 tok v2
  let st4 := { st3 with heap := ins.1 }
  let st5 :=
    if tok = .VAR then
      let rec4 := ast_record_var st4.vidx v2
      { st4 with vidx := rec4.1,
                 errno := if rec4.2 ≠ 0 then rec4.2 else st4.errno }
    else st4
  (st5, ins.2)

/-- `ast_parse_token`: parse one token at the cursor, push it into the tree
and recurse on the rest of the string.  Fuel-bounded: every recursive call
of the source consumes at least one character, so fuel `length + 1` is
never exhausted (exhaustion, which cannot occur, is flagged with
`AST_ERR_UNKNOWN`).

The body mirrors the source step for step: sticky-error guard; whitespace
skip; end-of-string handling (`ast_parse_end`); classification `switch`
(`ast_classify`, with the early return on variable-index overflow);
message selection (`ast_msg_sel`); right-parenthesis validation and splice
(`ast_rparen_step`); the message-set check turning any recorded message
into `AST_ERR_TOKEN`; number conversion (`ast_parse_num`) or the common
`c++` cursor advance; insertion and variable recording
(`ast_insert_step`); recursion. -/
def ast_parse_token : Nat → ast_state → Nat → List Char → ast_state
  | 0, st, _, _ => { st with errno := AST_ERR_UNKNOWN }
  | fuel + 1, st, node, src =>
    if st.errno ≠ 0 then st
    else
      let c := ast_skip_space src
      let n := readNode st.heap node
      let argc := nodeArgc n
      match c with
      | [] => ast_parse_end st node (decide (argc < (ast_tok_attr n.type).argc))
      | _ :: _ =>
        match ast_classify st.dtype (decide ((ast_tok_attr n.type).argc ≤ argc)) c with
        | .err m => { st with errMsg := some m, errno := AST_ERR_TOKEN }
        | .ok tok v c1 =>
          let st2 := ast_msg_sel tok (decide ((ast_tok_attr n.type).argc ≤ argc)) st
          let paren := ast_rparen_step st2 node n.type tok
          let st3 := paren.1
          let node2 := paren.2
          if st3.errMsg.isSome then { st3 with errno := AST_ERR_TOKEN }
          else
            let num := if tok = .NUM then ast_parse_num c1 else some (v, c1.drop 1)
            match num with
            | none =>
              { st3 with errMsg := some "failed to recognise the number",
                         errno := AST_ERR_TOKEN }
            | some vc =>
              if tok = .PAREN_RIGHT then
                ast_parse_token fuel st3 node2 vc.2
              else
                let step := ast_insert_step st3 node2 tok vc.1
                ast_parse_token fuel step.1 step.2 vc.2

/-- `ast_build`: build the tree for an expression.  Returns the new handle
state and the return code.  As in the source: a handle that already has an
AST gets (and returns) `AST_ERR_EXIST` whatever its previous code was; a
NULL or all-whitespace string gets `AST_ERR_STRING`; otherwise the data
type is set, an `UNDEF` placeholder root is allocated and stored in the
handle before parsing starts, and on success the handle's root is re-read
by walking parent links from the placeholder. -/
def ast_build (st : ast_state) (str : Option String) (dt : ast_dtype) :
    ast_state × Int :=
  if st.root.isSome then
    ({ st with errno := AST_ERR_EXIST }, AST_ERR_EXIST)
  else
    match str with
    | none => ({ st with errno := AST_ERR_STRING }, AST_ERR_STRING)
    | some s =>
      let cs := ast_skip_space s.toList
      match cs with
      | [] => ({ st with errno := AST_ERR_STRING }, AST_ERR_STRING)
      | _ :: _ =>
        let rootId := st.heap.length
        let st1 := { st with dtype := dt,
                             heap := st.heap ++ [some nodeDefault],
                             root := some rootId }
        let st2 := ast_parse_token (cs.length + 1) st1 rootId cs
        if st2.errno ≠ 0 then (st2, st2.errno)
        else
          let r := ast_root st2.heap (st2.heap.length + 1) rootId
          ({ st2 with root := some r }, 0)

/-- The four operations of `ast_eval_long` that the source routes through
libm's double functions and converts back to `long` (`sqrt`, `log`,
`log10`, `pow`).  Their values depend on the platform's libm, so they are
parameters of the model; no claim depends on them. -/
structure long_math where
  sqrtl : Int → Int
  lnl : Int → Int
  logl : Int → Int
  powl : Int → Int → Int

/-- A concrete `long_math` instance used for runs that never reach the
libm-routed operators. -/
def long_math0 : long_math := ⟨fun _ => 0, fun _ => 0, fun _ => 0, fun _ _ => 0⟩

/-- `ast_eval_long`: the recursive integer evaluator.  The error flag is
threaded exactly as in C: checked on entry (returning 0), set by the two
`default:` branches, and otherwise carried along while arithmetic continues
on the values already obtained.  A missing child pointer is a NULL
dereference in C; the model flags it (it never happens on built trees).
Fuel-bounded; fuel exceeding the heap size is never exhausted on trees. -/
def ast_eval_long (mm : long_math) (h : Heap) (var : List Int) :
    Nat → Nat → Bool → Int × Bool
  | 0, _, _ => (0, true)
  | fuel + 1, i, e =>
    if e then (0, e)
    else
      let n := readNode h i
      if n.type = .NUM then (n.value, e)
      else if n.type = .VAR then ((List.get? var n.value.toNat).getD 0, e)
      else if (ast_tok_attr n.type).argc = 1 then
        match n.left with
        | none => (0, true)
        | some li =>
          let r := ast_eval_long mm h var fuel li e
          let v := r.1
          let e1 := r.2
          match n.type with
          | .NEG => (-v, e1)
          | .NOT => (if v ≠ 0 then 0 else 1, e1)
          | .SQRT => (mm.sqrtl v, e1)
          | .LN => (mm.lnl v, e1)
          | .LOG => (mm.logl v, e1)
          | _ => (0, true)
      else
        match n.left, n.right with
        | some li, some ri =>
          let r1 := ast_eval_long mm h var fuel li e
          let r2 := ast_eval_long mm h var fuel ri r1.2
          let v1 := r1.1
          let v2 := r2.1
          let e2 := r2.2
          match n.type with
          | .PLUS => (v1 + v2, e2)
          | .MINUS => (v1 - v2, e2)
          | .MUL => (v1 * v2, e2)
          | .DIV => (Int.tdiv v1 v2, e2)
          | .POW => (mm.powl v1 v2, e2)
          | .AND => (if v1 ≠ 0 ∧ v2 ≠ 0 then 1 else 0, e2)
          | .OR => (if v1 ≠ 0 ∨ v2 ≠ 0 then 1 else 0, e2)
          | .EQ => (if v1 = v2 then 1 else 0, e2)
          | .NEQ => (if v1 ≠ v2 then 1 else 0, e2)
          | .GT => (if v2 < v1 then 1 else 0, e2)
          | .GE => (if v2 ≤ v1 then 1 else 0, e2)
          | .LT => (if v1 < v2 then 1 else 0, e2)
          | .LE => (if v1 ≤ v2 then 1 else 0, e2)
          | _ => (0, true)
        | _, _ => (0, true)

/-- The double arithmetic of `ast_eval_double`, abstracted over the carrier:
IEEE-754 doubles are not modelled, and the evaluator's control flow is
independent of the arithmetic.  `payload` reads the `d` member of a `NUM`
node's value union (the model stores `Int` payloads). -/
structure double_ops (α : Type) where
  payload : Int → α
  zero : α
  one : α
  neg : α → α
  sqrtd : α → α
  lnd : α → α
  logd : α → α
  add : α → α → α
  sub : α → α → α
  mul : α → α → α
  divd : α → α → α
  powd : α → α → α
  nez : α → Bool
  eqd : α → α → Bool
  ned : α → α → Bool
  gtd : α → α → Bool
  ged : α → α → Bool
  ltd : α → α → Bool
  led : α → α → Bool

/-- A trivial `double_ops` instance over `Unit` for runs in `LONG` mode. -/
def double_ops0 : double_ops Unit :=
  ⟨fun _ => (), (), (), fun _ => (), fun _ => (), fun _ => (), fun _ => (),
   fun _ _ => (), fun _ _ => (), fun _ _ => (), fun _ _ => (), fun _ _ => (),
   fun _ => false, fun _ _ => false, fun _ _ => false, fun _ _ => false,
   fun _ _ => false, fun _ _ => false, fun _ _ => false⟩

/-- `ast_eval_double`: the recursive double evaluator, structurally
identical to `ast_eval_long` with the arithmetic abstract. -/
def ast_eval_double (ops : double_ops α) (h : Heap) (var : List α) :
    Nat → Nat → Bool → α × Bool
  | 0, _, _ => (ops.zero, true)
  | fuel + 1, i, e =>
    if e then (ops.zero, e)
    else
      let n := readNode h i
      if n.type = .NUM then (ops.payload n.value, e)
      else if n.type = .VAR then ((List.get? var n.value.toNat).getD ops.zero, e)
      else if (ast_tok_attr n.type).argc = 1 then
        match n.left with
        | none => (ops.zero, true)
        | some li =>
          let r := ast_eval_double ops h var fuel li e
          let v := r.1
          let e1 := r.2
          match n.type with
          | .NEG => (ops.neg v, e1)
          | .NOT => (if ops.nez v then ops.zero else ops.one, e1)
          | .SQRT => (ops.sqrtd v, e1)
          | .LN => (ops.lnd v, e1)
          | .LOG => (ops.logd v, e1)
          | _ => (ops.zero, true)
      else
        match n.left, n.right with
        | some li, some ri =>
          let r1 := ast_eval_double ops h var fuel li e
          let r2 := ast_eval_double ops h var fuel ri r1.2
          let v1 := r1.1
          let v2 := r2.1
          let e2 := r2.2
          match n.type with
          | .PLUS => (ops.add v1 v2, e2)
          | .MINUS => (ops.sub v1 v2, e2)
          | .MUL => (ops.mul v1 v2, e2)
          | .DIV => (ops.divd v1 v2, e2)
          | .POW => (ops.powd v1 v2, e2)
          | .AND => (if ops.nez v1 ∧ ops.nez v2 then ops.one else ops.zero, e2)
          | .OR => (if ops.nez v1 ∨ ops.nez v2 then ops.one else ops.zero, e2)
          | .EQ => (if ops.eqd v1 v2 then ops.one else ops.zero, e2)
          | .NEQ => (if ops.ned v1 v2 then ops.one else ops.zero, e2)
          | .GT => (if ops.gtd v1 v2 then ops.one else ops.zero, e2)
          | .GE => (if ops.ged v1 v2 then ops.one else ops.zero, e2)
          | .LT => (if ops.ltd v1 v2 then ops.one else ops.zero, e2)
          | .LE => (if ops.led v1 v2 then ops.one else ops.zero, e2)
          | _ => (ops.zero, true)
        | _, _ => (ops.zero, true)

/-- What `ast_eval` wrote through the caller's `value` pointer: nothing, a
`long`, or a double (of the abstract carrier). -/
inductive eval_out (α : Type) where
  | nothing
  | long (v : Int)
  | double (v : α)
deriving DecidableEq, Repr

/-- `ast_eval`: the public evaluation entry point.  `var = none` models a
NULL variable-array pointer (when non-NULL, the pair carries the buffer
read as longs and as doubles, since C reinterprets one pointer by the
handle's data type); `valueNull` models a NULL `value` output pointer.
Returns the new handle state, what was written through `value`, and the
return code.  The argument checks are performed in the source's order, and
— as in the source — the result is stored through `value` before the
evaluator's error flag is consulted. -/
def ast_eval (ops : double_ops α) (mm : long_math) (st : ast_state)
    (var : Option (List Int × List α)) (size : Nat) (valueNull : Bool) :
    ast_state × eval_out α × Int :=
  if st.errno ≠ 0 then (st, .nothing, st.errno)
  else
    match st.root with
    | none => ({ st with errno := AST_ERR_NOEXP }, .nothing, AST_ERR_NOEXP)
    | some r =>
      if var.isNone ∧ size ≠ 0 then
        ({ st with errno := AST_ERR_VAR }, .nothing, AST_ERR_VAR)
      else if valueNull then
        ({ st with errno := AST_ERR_VALUE }, .nothing, AST_ERR_VALUE)
      else if st.vidx ≠ [] ∧ (size : Int) ≤ (st.vidx.getLast?).getD 0 then
        ({ st with errno := AST_ERR_SIZE }, .nothing, AST_ERR_SIZE)
      else
        if st.dtype = .DOUBLE then
          let rr := ast_eval_double ops st.heap ((var.map Prod.snd).getD [])
            (st.heap.length + 1) r false
          if rr.2 then ({ st with errno := AST_ERR_EVAL }, .double rr.1, AST_ERR_EVAL)
          else (st, .double rr.1, 0)
        else
          let rr := ast_eval_long mm st.heap ((var.map Prod.fst).getD [])
            (st.heap.length + 1) r false
          if rr.2 then ({ st with errno := AST_ERR_EVAL }, .long rr.1, AST_ERR_EVAL)
          else (st, .long rr.1, 0)

/-!  Shared helpers for the concrete runs of the theorems below. -/

/-- Build an expression in `LONG` mode on a fresh handle. -/
def buildL (s : String) : ast_state × Int :=
  ast_build ast_fresh (some s) .LONG

/-- Evaluate a built handle in `LONG` mode against an empty variable
array. -/
def evalL (st : ast_state) : ast_state × eval_out Unit × Int :=
  ast_eval double_ops0 long_math0 st (some ([], [])) 0 false

/-- The root node of a handle (the handle's runs always have a root). -/
def rootNode (st : ast_state) : Node :=
  readNode st.heap (st.root.getD 0)

/-- Decides whether every live node's parent link points to a node that has
it as a child — the parent-link invariant claimed for the builder. -/
def parent_links_ok (h : Heap) : Bool :=
  (List.range h.length).all fun i =>
    match List.get? h i with
    | some (some n) =>
      match n.parent with
      | none => true
      | some p =>
        decide ((readNode h p).left = some i ∨ (readNode h p).right = some i)
    | _ => true

/-- The stopping condition of the `ast_insert` precedence climb at node
`n`: no parent, or a parent that is a left parenthesis, a function, or of
precedence strictly below the inserted operator's `p`. -/
def climb_stopB (h : Heap) (p : Int) (n : Nat) : Bool :=
  match (readNode h n).parent with
  | none => true
  | some q =>
    (readNode h q).type == .PAREN_LEFT ||
    (ast_tok_attr (readNode h q).type).type == .FUNC ||
    decide ((ast_tok_attr (readNode h q).type).precedence < p)

/-- `ClimbsTo h p n r`: starting from `n`, the precedence climb for an
operator of precedence `p` walks only past parents that are neither
parentheses nor functions and have precedence ≥ `p`, and ends at `r`
satisfying the stopping condition. -/
inductive ClimbsTo (h : Heap) (p : Int) : Nat → Nat → Prop where
  | stop (n : Nat) : climb_stopB h p n = true → ClimbsTo h p n n
  | step (n q r : Nat) : (readNode h n).parent = some q →
      ¬ (readNode h q).type = .PAREN_LEFT →
      ¬ (ast_tok_attr (readNode h q).type).type = .FUNC →
      p ≤ (ast_tok_attr (readNode h q).type).precedence →
      ClimbsTo h p q r → ClimbsTo h p n r

/-- Checks the claimed shape of `1 op 2 op 3` for the operator written
`s`: the build succeeds, the root is the rightmost (binary) operator with
the literal 3 on the right, and its left child is the same operator over
the literals 1 and 2 — i.e. `((1 op 2) op 3)`. -/
def left_assoc3 (s : String) : Bool :=
  let b := buildL ("1" ++ s ++ "2" ++ s ++ "3")
  let st := b.1
  let rn := rootNode st
  b.2 == 0 &&
  ((ast_tok_attr rn.type).type == .BOPT) &&
  (match rn.left, rn.right with
  | some li, some ri =>
    let ln := readNode st.heap li
    let rrn := readNode st.heap ri
    (ln.type == rn.type) && (rrn.type == .NUM) && (rrn.value == 3) &&
    (match ln.left, ln.right with
    | some lli, some lri =>
      ((readNode st.heap lli).type == .NUM) && ((readNode st.heap lli).value == 1) &&
      ((readNode st.heap lri).type == .NUM) && ((readNode st.heap lri).value == 2)
    | _, _ => false)
  | _, _ => false)

/-- Some live node of the heap is a `VAR` with stored index `w`. -/
def VarInHeap (h : Heap) (w : Int) : Prop :=
  ∃ i n, liveAt h i n ∧ n.type = .VAR ∧ n.value = w

/-- The parse-time invariant: the variable-index set is strictly sorted
and holds exactly the indices of the live `VAR` nodes of the heap. -/
def VInv (st : ast_state) : Prop :=
  List.Pairwise (· < ·) st.vidx ∧ ∀ w, w ∈ st.vidx ↔ VarInHeap st.heap w

/-!  ## Heap access lemmas -/

theorem writeNode_length (h : Heap) (i : Nat) (n : Node) :
    (writeNode h i n).length = h.length := by
  simp [writeNode]

theorem readNode_write_ne (h : Heap) (i j : Nat) (n : Node) (hij : i ≠ j) :
    readNode (writeNode h i n) j = readNode h j := by
  simp [readNode, writeNode, List.getElem?_set_ne hij]

theorem readNode_write_self (h : Heap) (i : Nat) (n : Node) (hi : i < h.length) :
    readNode (writeNode h i n) i = n := by
  simp [readNode, writeNode, List.getElem?_set_eq_of_lt _ hi]

theorem readNode_free_ne (h : Heap) (i j : Nat) (hij : i ≠ j) :
    readNode (freeNode h i) j = readNode h j := by
  simp [readNode, freeNode, List.getElem?_set_ne hij]

theorem get?_free_self (h : Heap) (i : Nat) (hi : i < h.length) :
    List.get? (freeNode h i) i = some none := by
  simp [freeNode, List.getElem?_set_eq_of_lt _ hi]

theorem readNode_append_lt (h : Heap) (x : Option Node) (j : Nat)
    (hj : j < h.length) : readNode (h ++ [x]) j = readNode h j := by
  simp [readNode, List.getElem?_append_left hj]

theorem readNode_append_self (h : Heap) (n : Node) :
    readNode (h ++ [some n]) h.length = n := by
  simp [readNode, List.getElem?_concat_length]

/-!  ## Claims -/

/-- C1.  The claim says the tokenizer maps `==` to `EQ`, so that `a == b`
evaluates to 1 exactly when the operands are equal.  The source instead
wires `==` to the OR token (`case '=': if (*(++c) == '=') tok =
AST_TOK_OR;`, libast.c:557) — a slip the code's own token table and README
contradict.  This theorem evaluates the code at the failing input: the
classifier emits `OR` for `==`; building `1==2` yields an `OR` root and
evaluating it returns 1 (an equality test would give 0), and `0==0`
returns 0 (equality would give 1). -/
theorem c1_eq_misrouted_to_or :
    ast_classify .LONG true ('=' :: '=' :: []) = .ok .OR 0 ('=' :: []) ∧
    (buildL "1==2").2 = 0 ∧ (rootNode (buildL "1==2").1).type = .OR ∧
    (evalL (buildL "1==2").1).2.1 = .long 1 ∧
    (buildL "0==0").2 = 0 ∧ (evalL (buildL "0==0").1).2.1 = .long 0 := by
  decide

/-- C2 (counterexample).  The claim says: first non-space character `-`
with the current node's filled arity ≥ its declared arity emits `NEG`,
otherwise `MINUS`.  The source does the opposite (libast.c:543-546), which
is also the sensible reading (a complete node means an operator is
expected, hence binary minus).  Concretely, parsing `1-2` reaches the `-`
with a complete `NUM` node (filled 0 ≥ declared 0), and the built root is
a binary `MINUS`, not `NEG`; the classifier in that state returns `MINUS`. -/
theorem c2_counterexample :
    ast_classify .LONG true ('-' :: '2' :: []) = .ok .MINUS 0 ('-' :: '2' :: []) ∧
    (buildL "1-2").2 = 0 ∧ (rootNode (buildL "1-2").1).type = .MINUS ∧
    (rootNode (buildL "1-2").1).type ≠ .NEG ∧
    (evalL (buildL "1-2").1).2.1 = .long (-1) := by
  decide

/-- C2 (amended).  What the tokenizer actually does with `-`: if the
current insertion node has already received its full arity it emits
`MINUS`; otherwise it emits `NEG`. -/
theorem c2_minus_rule (dt : ast_dtype) (argcGe : Bool) (tl : List Char) :
    ast_classify dt argcGe ('-' :: tl) =
      .ok (if argcGe then .MINUS else .NEG) 0 ('-' :: tl) := by
  cases dt <;> cases argcGe <;> rfl

/-- C8.  The six error scenarios of the spec, run on fresh handles:
`(1+2` → "unclosed parenthesis", `1+` → "incomplete expression",
`1++2` → "missing value", `(1+2))` → "unbalanced parenthesis",
`()` → "empty parenthesis", and `$0` / `${0}` → a token error
(`AST_ERR_TOKEN`, message "unrecognised token"). -/
theorem c8_error_messages :
    (buildL "(1+2").2 = AST_ERR_TOKEN ∧
    (buildL "(1+2").1.errMsg = some "unclosed parenthesis" ∧
    (buildL "1+").2 = AST_ERR_TOKEN ∧
    (buildL "1+").1.errMsg = some "incomplete expression" ∧
    (buildL "1++2").2 = AST_ERR_TOKEN ∧
    (buildL "1++2").1.errMsg = some "missing value" ∧
    (buildL "(1+2))").2 = AST_ERR_TOKEN ∧
    (buildL "(1+2))").1.errMsg = some "unbalanced parenthesis" ∧
    (buildL "()").2 = AST_ERR_TOKEN ∧
    (buildL "()").1.errMsg = some "empty parenthesis" ∧
    (buildL "$0").2 = AST_ERR_TOKEN ∧
    (buildL "$\x7b0\x7d").2 = AST_ERR_TOKEN := by
  decide

/-- C9.  On a fresh `LONG` handle, `2+3*4` builds and evaluates (empty
variable array) to 14, and `(2+3)*4` to 20; the latter tree has a binary
multiplication at its root after the parenthesis splice, with both
children present. -/
theorem c9_concrete_eval :
    (buildL "2+3*4").2 = 0 ∧ (evalL (buildL "2+3*4").1).2.2 = 0 ∧
    (evalL (buildL "2+3*4").1).2.1 = .long 14 ∧
    (buildL "(2+3)*4").2 = 0 ∧ (evalL (buildL "(2+3)*4").1).2.2 = 0 ∧
    (evalL (buildL "(2+3)*4").1).2.1 = .long 20 ∧
    (rootNode (buildL "(2+3)*4").1).type = .MUL ∧
    (ast_tok_attr (rootNode (buildL "(2+3)*4").1).type).type = .BOPT ∧
    (rootNode (buildL "(2+3)*4").1).left.isSome ∧
    (rootNode (buildL "(2+3)*4").1).right.isSome := by
  decide

/-- C3 (counterexample).  The claim says a non-zero error code is sticky:
later `ast_build`/`ast_eval` calls return the same code and leave the error
code, AST pointer and variable-index set unchanged.  Concretely: a fresh
handle gets `AST_ERR_NOEXP` from `ast_eval`; the next `ast_build` does
return the same code, but changes the AST pointer from `none` to the fresh
placeholder root (libast.c:686 stores it before the parser's sticky-error
guard runs); and the `ast_build` after that returns `AST_ERR_EXIST`, a
different code, overwriting the stored one (libast.c:678). -/
theorem c3_counterexample :
    (evalL ast_fresh).2.2 = AST_ERR_NOEXP ∧
    (ast_build (evalL ast_fresh).1 (some "1") .LONG).2 = AST_ERR_NOEXP ∧
    (ast_build (evalL ast_fresh).1 (some "1") .LONG).1.root ≠
      (evalL ast_fresh).1.root ∧
    (ast_build (ast_build (evalL ast_fresh).1 (some "1") .LONG).1
      (some "1") .LONG).2 = AST_ERR_EXIST ∧
    (ast_build (ast_build (evalL ast_fresh).1 (some "1") .LONG).1
      (some "1") .LONG).1.errno = AST_ERR_EXIST ∧
    AST_ERR_EXIST ≠ AST_ERR_NOEXP := by
  decide

/-- C4 (counterexample).  The claim says every live non-root node's parent
link points to the node that contains it, at every point during and after
building.  After building `1+2*3`, the literal-`2` node (cell 2) is the
left child of the `MUL` node (cell 3), but its parent link still names the
`PLUS` root (cell 1): `ast_insert` omits the parent update when grafting
between two nodes (libast.c:307-311).  After building `(1+2)`, the
literal-`2` node (cell 3) has a parent link to cell 2, which the splice
freed (libast.c:273 frees the child without re-parenting the adopted
grandchildren), so following parent links from it stops at the freed cell
instead of the root. -/
theorem c4_counterexample :
    (buildL "1+2*3").2 = 0 ∧
    parent_links_ok (buildL "1+2*3").1.heap = false ∧
    (readNode (buildL "1+2*3").1.heap 2).parent = some 1 ∧
    (readNode (buildL "1+2*3").1.heap 3).left = some 2 ∧
    (readNode (buildL "1+2*3").1.heap 1).right = some 3 ∧
    (buildL "(1+2)").2 = 0 ∧
    (readNode (buildL "(1+2)").1.heap 3).parent = some 2 ∧
    List.get? (buildL "(1+2)").1.heap 2 = some none ∧
    (buildL "(1+2)").1.root = some 0 ∧
    ast_root (buildL "(1+2)").1.heap 5 3 = 2 := by
  decide

/-- C3 (amended).  What actually holds: (i) `ast_eval` is sticky — on a
handle with a non-zero code it returns that code and changes nothing;
(ii) `ast_build` does not consult the stored code: with an AST pointer
present it sets and returns `AST_ERR_EXIST`; (iii) with no AST pointer and
a non-blank string it returns the stored code, but only because the
parser's entry guard stops it — by then it has already stored the fresh
placeholder root in the handle (the error code and variable-index set are
unchanged on this path). -/
theorem c3_sticky :
    (∀ (α : Type) (ops : double_ops α) (mm : long_math) (st : ast_state)
      (var : Option (List Int × List α)) (size : Nat) (vn : Bool),
      st.errno ≠ 0 → ast_eval ops mm st var size vn = (st, .nothing, st.errno)) ∧
    (∀ (st : ast_state) (str : Option String) (dt : ast_dtype), st.root.isSome →
      ast_build st str dt = ({ st with errno := AST_ERR_EXIST }, AST_ERR_EXIST)) ∧
    (∀ (st : ast_state) (s : String) (dt : ast_dtype),
      st.errno ≠ 0 → st.root = none → ast_skip_space s.toList ≠ [] →
      (ast_build st (some s) dt).2 = st.errno ∧
      (ast_build st (some s) dt).1.root = some st.heap.length ∧
      (ast_build st (some s) dt).1.errno = st.errno ∧
      (ast_build st (some s) dt).1.vidx = st.vidx) := by
  refine ⟨?_, ?_, ?_⟩
  · intro α ops mm st var size vn h
    simp [ast_eval, h]
  · intro st str dt h
    simp [ast_build, h]
  · intro st s dt herr hroot hcs
    have hr : st.root.isSome = false := by simp [hroot]
    rcases hlist : ast_skip_space s.toList with _ | ⟨c, tl⟩
    · exact absurd hlist hcs
    · simp only [ast_build, hr, Bool.false_eq_true, if_false, hlist]
      simp only [ast_parse_token, herr, if_pos, ne_eq, not_false_iff]
      simp [herr]

/-- Witness for C3 (amended): the three parts applied to concrete handles
with error code `AST_ERR_NOEXP`, or with an AST present. -/
theorem c3_sticky_witness :
    (ast_eval double_ops0 long_math0 { ast_fresh with errno := AST_ERR_NOEXP }
      none 0 false =
      ({ ast_fresh with errno := AST_ERR_NOEXP }, .nothing, AST_ERR_NOEXP)) ∧
    (ast_build { ast_fresh with root := some 0, heap := [some nodeDefault] }
      (some "1") .LONG =
      ({ ast_fresh with
          root := some 0
          heap := [some nodeDefault]
          errno := AST_ERR_EXIST }, AST_ERR_EXIST)) ∧
    ((ast_build { ast_fresh with errno := AST_ERR_NOEXP } (some "1") .LONG).2 =
      AST_ERR_NOEXP ∧
     (ast_build { ast_fresh with errno := AST_ERR_NOEXP } (some "1") .LONG).1.root =
      some 0) := by
  refine ⟨?_, ?_, ?_, ?_⟩
  · exact c3_sticky.1 Unit double_ops0 long_math0 _ none 0 false (by decide)
  · exact c3_sticky.2.1 _ (some "1") .LONG (by decide)
  · exact (c3_sticky.2.2 _ "1" .LONG (by decide) (by decide) (by decide)).1
  · exact (c3_sticky.2.2 _ "1" .LONG (by decide) (by decide) (by decide)).2.1

/-- C4 (amended).  The builder does not maintain the full parent-link
invariant; what holds instead is exactly the failure mode the
counterexample exhibits, in general form: (i) the splice `ast_delete`
frees the child cell and leaves the adopted grandchild's cell — including
its parent link, which named the freed child — untouched; (ii) when
`ast_insert` grafts a binary node between the stopping node and its
parent, the new node adopts the stopping node as left child but the
stopping node's parent link still names its former parent. -/
theorem c4_stale_links :
    (∀ (h : Heap) (i t cl : Nat),
      (readNode h i).left = some t → t ≠ i → t < h.length →
      (readNode h t).left = some cl → cl ≠ t → cl ≠ i →
      List.get? (ast_delete h i) t = some none ∧
      readNode (ast_delete h i) cl = readNode h cl) ∧
    (∀ (h : Heap) (cur : Nat) (tok : ast_tok) (v : Int) (stop par : Nat),
      ¬ (readNode h cur).type = .UNDEF →
      (ast_tok_attr tok).type = .BOPT →
      stop = ast_climb (h ++ [some ⟨tok, v, none, none, none⟩])
        (List.length (h ++ [some ⟨tok, v, none, none, none⟩])) cur
        (ast_tok_attr tok).precedence →
      (readNode (h ++ [some ⟨tok, v, none, none, none⟩]) stop).parent = some par →
      stop ≠ h.length → par ≠ stop → par < h.length →
      (readNode (ast_insert h cur tok v).1 stop).parent = some par ∧
      (readNode (ast_insert h cur tok v).1 h.length).left = some stop) := by
  constructor
  · intro h i t cl hit hti htl hcl hclt hcli
    simp only [ast_delete, hit]
    constructor
    · exact get?_free_self _ t (by rw [writeNode_length]; exact htl)
    · rw [readNode_free_ne _ _ _ (Ne.symm hclt),
          readNode_write_ne _ _ _ _ (Ne.symm hcli)]
  · intro h cur tok v stop par hcur hb hstop hpar hsn hps hpn
    have hnew : par ≠ h.length := Nat.ne_of_lt hpn
    have hlt1 : h.length < (h ++ [some (⟨tok, v, none, none, none⟩ : Node)]).length := by
      simp
    rw [ast_insert, if_neg hcur, if_pos hb]
    simp only [← hstop, hpar]
    constructor
    · split <;>
      · rw [readNode_write_ne _ _ _ _ hps,
            readNode_write_ne _ _ _ _ (Ne.symm hsn),
            readNode_write_ne _ _ _ _ (Ne.symm hsn)]
        exact hpar
    · split <;>
      · rw [readNode_write_ne _ _ _ _ hnew,
            readNode_write_self _ _ _ (by rw [writeNode_length]; exact hlt1),
            readNode_write_self _ _ _ hlt1]

/-- Witness for C4 (amended): the splice case on a parenthesis node whose
child is a `PLUS` with two literal children, and the graft case on the
finished tree of `1+2` receiving a `MUL`. -/
theorem c4_stale_links_witness :
    (List.get? (ast_delete
      [some ⟨.PAREN_LEFT, 0, none, some 1, none⟩,
       some ⟨.PLUS, 0, some 0, some 2, some 3⟩,
       some ⟨.NUM, 1, some 1, none, none⟩,
       some ⟨.NUM, 2, some 1, none, none⟩] 0) 1 = some none ∧
     readNode (ast_delete
      [some ⟨.PAREN_LEFT, 0, none, some 1, none⟩,
       some ⟨.PLUS, 0, some 0, some 2, some 3⟩,
       some ⟨.NUM, 1, some 1, none, none⟩,
       some ⟨.NUM, 2, some 1, none, none⟩] 0) 2 =
     readNode
      [some ⟨.PAREN_LEFT, 0, none, some 1, none⟩,
       some ⟨.PLUS, 0, some 0, some 2, some 3⟩,
       some ⟨.NUM, 1, some 1, none, none⟩,
       some ⟨.NUM, 2, some 1, none, none⟩] 2) ∧
    ((readNode (ast_insert
      [some ⟨.NUM, 1, some 1, none, none⟩,
       some ⟨.PLUS, 0, none, some 0, some 2⟩,
       some ⟨.NUM, 2, some 1, none, none⟩] 2 .MUL 0).1 2).parent = some 1 ∧
     (readNode (ast_insert
      [some ⟨.NUM, 1, some 1, none, none⟩,
       some ⟨.PLUS, 0, none, some 0, some 2⟩,
       some ⟨.NUM, 2, some 1, none, none⟩] 2 .MUL 0).1 3).left = some 2) := by
  constructor
  · exact c4_stale_links.1 _ 0 1 2 (by decide) (by decide) (by decide)
      (by decide) (by decide) (by decide)
  · exact c4_stale_links.2 _ 2 .MUL 0 2 1 (by decide) (by decide) (by decide)
      (by decide) (by decide) (by decide) (by decide)

/-- C6.  On a handle with error code 0, `ast_eval` performs the argument
checks in the source's order: `NOEXP` with no AST; `VAR` when the variable
pointer is NULL while the declared length is non-zero; `VALUE` when the
output pointer is NULL; `SIZE` when the expression references at least one
variable and the declared length is at most the maximum recorded variable
index; then it runs the evaluator matching the handle's declared data type
and writes its result through the output pointer — returning `EVAL` if the
evaluator raised its internal error flag and 0 otherwise. -/
theorem c6_eval_error_codes (α : Type) (ops : double_ops α) (mm : long_math)
    (st : ast_state) (var : Option (List Int × List α)) (size : Nat) (vn : Bool)
    (h0 : st.errno = 0) :
    (st.root = none → ast_eval ops mm st var size vn =
      ({ st with errno := AST_ERR_NOEXP }, .nothing, AST_ERR_NOEXP)) ∧
    (∀ r, st.root = some r → var.isNone → size ≠ 0 →
      ast_eval ops mm st var size vn =
        ({ st with errno := AST_ERR_VAR }, .nothing, AST_ERR_VAR)) ∧
    (∀ r, st.root = some r → ¬ (var.isNone ∧ size ≠ 0) → vn = true →
      ast_eval ops mm st var size vn =
        ({ st with errno := AST_ERR_VALUE }, .nothing, AST_ERR_VALUE)) ∧
    (∀ r, st.root = some r → ¬ (var.isNone ∧ size ≠ 0) → vn = false →
      st.vidx ≠ [] → (size : Int) ≤ (st.vidx.getLast?).getD 0 →
      ast_eval ops mm st var size vn =
        ({ st with errno := AST_ERR_SIZE }, .nothing, AST_ERR_SIZE)) ∧
    (∀ r, st.root = some r → ¬ (var.isNone ∧ size ≠ 0) → vn = false →
      ¬ (st.vidx ≠ [] ∧ (size : Int) ≤ (st.vidx.getLast?).getD 0) →
      st.dtype = .LONG →
      (((ast_eval_long mm st.heap ((var.map Prod.fst).getD [])
          (st.heap.length + 1) r false).2 = true →
        ast_eval ops mm st var size vn =
          ({ st with errno := AST_ERR_EVAL },
           .long (ast_eval_long mm st.heap ((var.map Prod.fst).getD [])
              (st.heap.length + 1) r false).1, AST_ERR_EVAL)) ∧
       ((ast_eval_long mm st.heap ((var.map Prod.fst).getD [])
          (st.heap.length + 1) r false).2 = false →
        ast_eval ops mm st var size vn =
          (st, .long (ast_eval_long mm st.heap ((var.map Prod.fst).getD [])
              (st.heap.length + 1) r false).1, 0)))) ∧
    (∀ r, st.root = some r → ¬ (var.isNone ∧ size ≠ 0) → vn = false →
      ¬ (st.vidx ≠ [] ∧ (size : Int) ≤ (st.vidx.getLast?).getD 0) →
      st.dtype = .DOUBLE →
      (((ast_eval_double ops st.heap ((var.map Prod.snd).getD [])
          (st.heap.length + 1) r false).2 = true →
        ast_eval ops mm st var size vn =
          ({ st with errno := AST_ERR_EVAL },
           .double (ast_eval_double ops st.heap ((var.map Prod.snd).getD [])
              (st.heap.length + 1) r false).1, AST_ERR_EVAL)) ∧
       ((ast_eval_double ops st.heap ((var.map Prod.snd).getD [])
          (st.heap.length + 1) r false).2 = false →
        ast_eval ops mm st var size vn =
          (st, .double (ast_eval_double ops st.heap ((var.map Prod.snd).getD [])
              (st.heap.length + 1) r false).1, 0)))) := by
  refine ⟨?_, ?_, ?_, ?_, ?_, ?_⟩
  · intro h
    simp [ast_eval, h0, h]
  · intro r h hv hs
    simp [ast_eval, h0, h, hv, hs]
  · intro r h hnv hvn
    simp [ast_eval, h0, h, hnv, hvn]
    intro hveq hsz0
    exact absurd ⟨by simp [hveq], hsz0⟩ hnv
  · intro r h hnv hvn hne hle
    simp [ast_eval, h0, h, hnv, hvn, hne, hle]
    intro hveq hsz0
    exact absurd ⟨by simp [hveq], hsz0⟩ hnv
  · intro r h hnv hvn hsz hdt
    constructor
    · intro hflag
      simp [ast_eval, h0, h, hnv, hvn, hsz, hdt, hflag]
      intro hveq
      by_contra hs
      exact hnv ⟨by simp [hveq], hs⟩
    · intro hflag
      simp [ast_eval, h0, h, hnv, hvn, hsz, hdt, hflag]
      intro hveq
      by_contra hs
      exact hnv ⟨by simp [hveq], hs⟩
  · intro r h hnv hvn hsz hdt
    constructor
    · intro hflag
      simp [ast_eval, h0, h, hnv, hvn, hsz, hdt, hflag]
      intro hveq
      by_contra hs
      exact hnv ⟨by simp [hveq], hs⟩
    · intro hflag
      simp [ast_eval, h0, h, hnv, hvn, hsz, hdt, hflag]
      intro hveq
      by_contra hs
      exact hnv ⟨by simp [hveq], hs⟩

/-- Witness for C6: the `NOEXP` branch on a fresh handle, and the
successful `LONG` evaluation branch on the built expression `1`. -/
theorem c6_eval_witness :
    ast_eval double_ops0 long_math0 ast_fresh none 0 false =
      ({ ast_fresh with errno := AST_ERR_NOEXP }, .nothing, AST_ERR_NOEXP) ∧
    ast_eval double_ops0 long_math0 (buildL "1").1 (some ([], [])) 0 false =
      ((buildL "1").1, .long 1, 0) := by
  constructor
  · exact (c6_eval_error_codes Unit double_ops0 long_math0 ast_fresh
      none 0 false rfl).1 rfl
  · exact ((c6_eval_error_codes Unit double_ops0 long_math0 (buildL "1").1
      (some ([], [])) 0 false (by decide)).2.2.2.2.1 0 (by decide) (by decide) rfl
      (by decide) (by decide)).2 (by decide)

/-- C10.  When `ast_eval` passes all argument checks and the recursive
evaluator of the handle's data type raises its internal error flag, the
result is still written through the caller's output location before
`AST_ERR_EVAL` is returned (libast.c:856-865 stores the value and only
then tests the flag). -/
theorem c10_writes_on_eval_error (α : Type) (ops : double_ops α) (mm : long_math)
    (st : ast_state) (var : Option (List Int × List α)) (size : Nat) (vn : Bool)
    (h0 : st.errno = 0) (r : Nat) (h : st.root = some r)
    (hnv : ¬ (var.isNone ∧ size ≠ 0)) (hvn : vn = false)
    (hsz : ¬ (st.vidx ≠ [] ∧ (size : Int) ≤ (st.vidx.getLast?).getD 0))
    (hflag :
      (st.dtype = .LONG →
        (ast_eval_long mm st.heap ((var.map Prod.fst).getD [])
          (st.heap.length + 1) r false).2 = true) ∧
      (st.dtype = .DOUBLE →
        (ast_eval_double ops st.heap ((var.map Prod.snd).getD [])
          (st.heap.length + 1) r false).2 = true)) :
    (ast_eval ops mm st var size vn).2.2 = AST_ERR_EVAL ∧
    (ast_eval ops mm st var size vn).2.1 ≠ .nothing ∧
    (ast_eval ops mm st var size vn).1.errno = AST_ERR_EVAL := by
  cases hdt : st.dtype
  · have hf := hflag.2 hdt
    refine ⟨?_, ?_, ?_⟩ <;>
    · simp [ast_eval, h0, h, hvn, hsz, hdt, hf]
      rw [if_neg (fun hc => hnv ⟨hc.1, hc.2⟩)]
      all_goals simp [AST_ERR_EVAL]
  · have hf := hflag.1 hdt
    refine ⟨?_, ?_, ?_⟩ <;>
    · simp [ast_eval, h0, h, hvn, hsz, hdt, hf]
      rw [if_neg (fun hc => hnv ⟨hc.1, hc.2⟩)]
      all_goals simp [AST_ERR_EVAL]

/-- Witness for C10: a `LONG` handle whose tree is a lone `UNDEF`
placeholder, on which the integer evaluator raises its flag (an `UNDEF`
node reaches the unary `default:` branch); the output is still written. -/
theorem c10_writes_witness :
    (ast_eval double_ops0 long_math0
      ⟨.LONG, [], some 0, [some nodeDefault], 0, none⟩
      (some ([], [])) 0 false).2.2 = AST_ERR_EVAL ∧
    (ast_eval double_ops0 long_math0
      ⟨.LONG, [], some 0, [some nodeDefault], 0, none⟩
      (some ([], [])) 0 false).2.1 ≠ .nothing ∧
    (ast_eval double_ops0 long_math0
      ⟨.LONG, [], some 0, [some nodeDefault], 0, none⟩
      (some ([], [])) 0 false).1.errno = AST_ERR_EVAL := by
  exact c10_writes_on_eval_error Unit double_ops0 long_math0
    ⟨.LONG, [], some 0, [some nodeDefault], 0, none⟩
    (some ([], [])) 0 false rfl 0 rfl (by decide) rfl (by decide) (by decide)

/-- The `while` loop of `ast_insert` satisfies `ClimbsTo` whenever its
result meets the stopping condition (in particular whenever the fuel is
not exhausted). -/
theorem ast_climb_sound (h : Heap) (p : Int) :
    ∀ (fuel n : Nat), climb_stopB h p (ast_climb h fuel n p) = true →
      ClimbsTo h p n (ast_climb h fuel n p) := by
  intro fuel
  induction fuel with
  | zero =>
    intro n hs
    exact ClimbsTo.stop _ hs
  | succ f ih =>
    intro n hs
    rcases hq : (readNode h n).parent with _ | q
    · have hr : ast_climb h (f + 1) n p = n := by
        simp [ast_climb, hq]
      rw [hr] at hs ⊢
      exact ClimbsTo.stop _ hs
    · by_cases h1 : (readNode h q).type = .PAREN_LEFT
      · have hr : ast_climb h (f + 1) n p = n := by
          simp [ast_climb, hq, h1]
        rw [hr] at hs ⊢
        exact ClimbsTo.stop _ hs
      · by_cases h2 : (ast_tok_attr (readNode h q).type).type = .FUNC
        · have hr : ast_climb h (f + 1) n p = n := by
            simp [ast_climb, hq, h1, h2]
          rw [hr] at hs ⊢
          exact ClimbsTo.stop _ hs
        · by_cases h3 : p ≤ (ast_tok_attr (readNode h q).type).precedence
          · have hr : ast_climb h (f + 1) n p = ast_climb h f q p := by
              simp [ast_climb, hq, h1, h2, h3]
            rw [hr] at hs ⊢
            exact ClimbsTo.step n q _ hq h1 h2 h3 (ih q hs)
          · have hr : ast_climb h (f + 1) n p = n := by
              simp [ast_climb, hq, h1, h2, h3]
            rw [hr] at hs ⊢
            exact ClimbsTo.stop _ hs

/-- C5.  Left-associative grouping and the precedence climb: for every
binary operator of the surface syntax (`+ - * / ^ && || == != > >= < <=`),
building `1 op 2 op 3` yields `((1 op 2) op 3)` — the rightmost operator at
the root, the left sub-expression below it — and, in general, the climb of
`ast_insert` walks past ancestors of precedence ≥ the new operator's and
stops at the first parenthesis or function node or lower-precedence parent
(`ClimbsTo` characterizes its trajectory).  Operand expressions are
instantiated as literals; the climb property, which determines the shape
for compound operands, is proved for every heap. -/
theorem c5_left_assoc :
    (["+", "-", "*", "/", "^", "&&", "||", "==", "!=", ">", ">=", "<", "<="].all
      left_assoc3 = true) ∧
    (∀ (h : Heap) (p : Int) (fuel n : Nat),
      climb_stopB h p (ast_climb h fuel n p) = true →
      ClimbsTo h p n (ast_climb h fuel n p)) :=
  ⟨by decide, fun h p fuel n hs => ast_climb_sound h p fuel n hs⟩

/-- Witness for C5: the climb applied on the finished tree of `1+2`
(literal 2 is the current node) for a new `+` of precedence 4 — it walks
past the `PLUS` root and stops there. -/
theorem c5_witness :
    ClimbsTo
      [some ⟨.NUM, 1, some 1, none, none⟩,
       some ⟨.PLUS, 0, none, some 0, some 2⟩,
       some ⟨.NUM, 2, some 1, none, none⟩] 4 2
      (ast_climb
        [some ⟨.NUM, 1, some 1, none, none⟩,
         some ⟨.PLUS, 0, none, some 0, some 2⟩,
         some ⟨.NUM, 2, some 1, none, none⟩] 3 2 4) :=
  c5_left_assoc.2 _ 4 3 2 (by decide)


/-!  ## Variable-index set and variable-recording invariants -/

theorem arrGet_eq_get (arr : List Int) (i : Int) (h0 : 0 ≤ i)
    (h : i < (arr.length : Int)) :
    arrGet arr i = arr.get ⟨i.toNat, by omega⟩ := by
  have ht : i.toNat < arr.length := by omega
  simp [arrGet, List.getElem?_eq_getElem ht]

theorem pairwise_get_lt (arr : List Int) (hs : List.Pairwise (· < ·) arr)
    (i j : Nat) (hij : i < j) (hj : j < arr.length) :
    arrGet arr (i : Int) < arrGet arr (j : Int) := by
  have hi : i < arr.length := Nat.lt_trans hij hj
  rw [arrGet_eq_get arr i (by omega) (by omega),
      arrGet_eq_get arr j (by omega) (by omega)]
  have := List.pairwise_iff_get.mp hs ⟨i, by omega⟩ ⟨j, by omega⟩ (by simpa using hij)
  simpa using this

theorem ast_bin_search_loop_spec (arr : List Int) (v : Int)
    (hs : List.Pairwise (· < ·) arr) :
    ∀ (fuel : Nat) (l u : Int), 0 ≤ l → l ≤ u + 1 → u < (arr.length : Int) →
      (u + 1 - l).toNat ≤ fuel →
      (∀ j : Nat, (j : Int) < l → arrGet arr (j : Int) < v) →
      (∀ j : Nat, u < (j : Int) → j < arr.length → v < arrGet arr (j : Int)) →
      (ast_bin_search_loop arr v fuel l u = -1 ∧ v ∈ arr) ∨
      (0 ≤ ast_bin_search_loop arr v fuel l u ∧
       ast_bin_search_loop arr v fuel l u ≤ (arr.length : Int) ∧
       (∀ j : Nat, (j : Int) < ast_bin_search_loop arr v fuel l u →
         arrGet arr (j : Int) < v) ∧
       (∀ j : Nat, ast_bin_search_loop arr v fuel l u ≤ (j : Int) →
         j < arr.length → v < arrGet arr (j : Int))) := by
  intro fuel
  induction fuel with
  | zero =>
    intro l u h0 hlu hu hfuel hleft hright
    have hl : l = u + 1 := by omega
    right
    refine ⟨by simpa [ast_bin_search_loop] using h0, by simp [ast_bin_search_loop]; omega,
      ?_, ?_⟩
    · intro j hj
      exact hleft j (by simpa [ast_bin_search_loop] using hj)
    · intro j hj hjl
      exact hright j (by simp [ast_bin_search_loop] at hj; omega) hjl
  | succ f ih =>
    intro l u h0 hlu hu hfuel hleft hright
    by_cases hle : l ≤ u
    · have hi0 : 0 ≤ (l + u) / 2 := by omega
      have hil : l ≤ (l + u) / 2 := by omega
      have hiu : (l + u) / 2 ≤ u := by omega
      by_cases hlt : arrGet arr ((l + u) / 2) < v
      · have hr : ast_bin_search_loop arr v (f + 1) l u =
            ast_bin_search_loop arr v f ((l + u) / 2 + 1) u := by
          simp [ast_bin_search_loop, hle, hlt]
        rw [hr]
        apply ih ((l + u) / 2 + 1) u (by omega) (by omega) hu (by omega)
        · intro j hj
          rcases Nat.lt_or_ge j ((l + u) / 2).toNat with hj2 | hj2
          · by_cases hjl : (j : Int) < l
            · exact hleft j hjl
            · have : arrGet arr (j : Int) < arrGet arr (((l + u) / 2).toNat : Int) := by
                apply pairwise_get_lt arr hs j ((l + u) / 2).toNat hj2
                omega
              have he : ((((l + u) / 2).toNat : Nat) : Int) = (l + u) / 2 := by omega
              rw [he] at this
              exact lt_trans this hlt
          · have : j = ((l + u) / 2).toNat := by omega
            subst this
            have he : ((((l + u) / 2).toNat : Nat) : Int) = (l + u) / 2 := by omega
            rw [he]
            exact hlt
        · exact hright
      · by_cases hgt : v < arrGet arr ((l + u) / 2)
        · have hr : ast_bin_search_loop arr v (f + 1) l u =
              ast_bin_search_loop arr v f l ((l + u) / 2 - 1) := by
            simp [ast_bin_search_loop, hle, hlt, hgt]
          rw [hr]
          apply ih l ((l + u) / 2 - 1) h0 (by omega) (by omega) (by omega) hleft
          intro j hj hjl
          rcases Nat.lt_or_ge (((l + u) / 2).toNat) j with hj2 | hj2
          · have : arrGet arr (((l + u) / 2).toNat : Int) < arrGet arr (j : Int) :=
              pairwise_get_lt arr hs ((l + u) / 2).toNat j hj2 hjl
            have he : ((((l + u) / 2).toNat : Nat) : Int) = (l + u) / 2 := by omega
            rw [he] at this
            exact lt_trans hgt this
          · have : j = ((l + u) / 2).toNat := by omega
            subst this
            have he : ((((l + u) / 2).toNat : Nat) : Int) = (l + u) / 2 := by omega
            rw [he]
            exact hgt
        · left
          have heq : arrGet arr ((l + u) / 2) = v := by omega
          constructor
          · simp [ast_bin_search_loop, hle, hlt, hgt]
          · have hlen : ((l + u) / 2).toNat < arr.length := by omega
            rw [arrGet_eq_get arr ((l + u) / 2) hi0 (by omega)] at heq
            exact heq ▸ List.get_mem arr _ _
    · right
      have hr : ast_bin_search_loop arr v (f + 1) l u = l := by
        simp [ast_bin_search_loop, hle]
      rw [hr]
      refine ⟨h0, by omega, hleft, ?_⟩
      intro j hj hjl
      exact hright j (by omega) hjl


set_option maxHeartbeats 1000000 in
theorem ast_bin_search_spec (arr : List Int) (v : Int)
    (hs : List.Pairwise (· < ·) arr) :
    (ast_bin_search arr (arr.length : Int) v = -1 ∧ v ∈ arr) ∨
    (0 ≤ ast_bin_search arr (arr.length : Int) v ∧
     ast_bin_search arr (arr.length : Int) v ≤ (arr.length : Int) ∧
     (∀ j : Nat, (j : Int) < ast_bin_search arr (arr.length : Int) v →
       arrGet arr (j : Int) < v) ∧
     (∀ j : Nat, ast_bin_search arr (arr.length : Int) v ≤ (j : Int) →
       j < arr.length → v < arrGet arr (j : Int)) ∧
     v ∉ arr) := by
  have hbase := ast_bin_search_loop_spec arr v hs
    ((arr.length : Int).toNat + 1) 0 ((arr.length : Int) - 1)
    (by omega) (by omega) (by omega) (by omega)
    (fun j hj => absurd hj (by omega))
    (fun j hj hjl => absurd hjl (by omega))
  rcases hbase with ⟨h1, h2⟩ | ⟨h1, h2, h3, h4⟩
  · exact Or.inl ⟨h1, h2⟩
  · right
    refine ⟨h1, h2, h3, h4, ?_⟩
    intro hmem
    rcases List.mem_iff_get.mp hmem with ⟨⟨j, hj⟩, hget⟩
    have hj2 : arrGet arr (j : Int) = v := by
      rw [arrGet_eq_get arr (j : Int) (by omega) (by omega)]
      simpa using hget
    rcases Int.lt_or_le (j : Int) (ast_bin_search arr (arr.length : Int) v) with hc | hc
    · have := h3 j hc
      omega
    · have := h4 j hc hj
      omega

set_option maxHeartbeats 1000000 in
theorem ast_record_var_spec (vidx : List Int) (idx : Int)
    (hs : List.Pairwise (· < ·) vidx) :
    (idx ∈ vidx → ast_record_var vidx idx = (vidx, 0)) ∧
    List.Pairwise (· < ·) (ast_record_var vidx idx).1 ∧
    ((ast_record_var vidx idx).2 = 0 →
      ∀ w, w ∈ (ast_record_var vidx idx).1 ↔ (w ∈ vidx ∨ w = idx)) := by
  rcases ast_bin_search_spec vidx idx hs with ⟨hres, hmem⟩ | ⟨h0, hlen, hlt, hgt, hnm⟩
  · have hne : vidx.isEmpty = false := by
      cases vidx
      · simp at hmem
      · rfl
    have hrec : ast_record_var vidx idx = (vidx, 0) := by
      simp only [ast_record_var, hne, Bool.false_eq_true, if_false, hres]
      norm_num
    refine ⟨fun _ => hrec, by rw [hrec]; exact hs, ?_⟩
    rw [hrec]
    intro _ w
    constructor
    · exact fun hw => Or.inl hw
    · rintro (hw | rfl)
      · exact hw
      · exact hmem
  · by_cases hemp : vidx.isEmpty
    · have hv : vidx = [] := by
        cases vidx
        · rfl
        · simp at hemp
      subst hv
      have hrec : ast_record_var [] idx = ([idx], 0) := by
        simp [ast_record_var, INT_MAX]
      refine ⟨fun hmem => by simp at hmem, ?_, ?_⟩
      · rw [hrec]
        simp
      · rw [hrec]
        intro _ w
        simp
    · have hemp2 : vidx.isEmpty = false := by simpa using hemp
      set pos := ast_bin_search vidx (vidx.length : Int) idx with hpos
      have hpos0 : ¬ pos < 0 := by omega
      refine ⟨fun hmem => absurd hmem hnm, ?_, ?_⟩
      · by_cases hmax : (vidx.length : Int) = INT_MAX
        · have hrec : (ast_record_var vidx idx).1 = vidx := by
            simp only [ast_record_var, hemp2, Bool.false_eq_true, if_false,
              ← hpos, if_neg hpos0, if_pos hmax]
          rw [hrec]
          exact hs
        · have hrec : (ast_record_var vidx idx).1 =
              vidx.take pos.toNat ++ idx :: vidx.drop pos.toNat := by
            simp only [ast_record_var, hemp2, Bool.false_eq_true, if_false,
              ← hpos, if_neg hpos0, if_neg hmax]
          rw [hrec]
          rw [List.pairwise_append]
          refine ⟨hs.sublist (List.take_sublist _ _), ?_, ?_⟩
          · rw [List.pairwise_cons]
            refine ⟨?_, hs.sublist (List.drop_sublist _ _)⟩
            intro b hb
            rcases List.mem_drop_iff_getElem.mp hb with ⟨i, hm, hget⟩
            have hj : idx < arrGet vidx ((pos.toNat + i : Nat) : Int) := by
              apply hgt (pos.toNat + i) (by omega) (by omega)
            rw [arrGet_eq_get vidx _ (by omega) (by omega)] at hj
            simp only [List.get_eq_getElem] at hj
            simp only [Int.toNat_natCast] at hj
            exact hget ▸ hj
          · intro a ha b hb
            rcases List.mem_take_iff_getElem.mp ha with ⟨i, hm, hget⟩
            have hj : arrGet vidx ((i : Nat) : Int) < idx := by
              apply hlt i (by omega)
            rw [arrGet_eq_get vidx _ (by omega) (by omega)] at hj
            simp only [List.get_eq_getElem] at hj
            have ha2 : a < idx := by
              simp only [Int.toNat_natCast] at hj
              exact hget ▸ hj
            rcases List.mem_cons.mp hb with rfl | hb2
            · exact ha2
            · rcases List.mem_drop_iff_getElem.mp hb2 with ⟨k, hm2, hget2⟩
              have hk : idx < arrGet vidx ((pos.toNat + k : Nat) : Int) := by
                apply hgt (pos.toNat + k) (by omega) (by omega)
              rw [arrGet_eq_get vidx _ (by omega) (by omega)] at hk
              simp only [List.get_eq_getElem] at hk
              simp only [Int.toNat_natCast] at hk
              have : idx < b := hget2 ▸ hk
              omega
      · intro hz w
        by_cases hmax : (vidx.length : Int) = INT_MAX
        · exfalso
          have : (ast_record_var vidx idx).2 = AST_ERR_NVAR := by
            simp only [ast_record_var, hemp2, Bool.false_eq_true, if_false,
              ← hpos, if_neg hpos0, if_pos hmax]
          rw [this] at hz
          norm_num [AST_ERR_NVAR] at hz
        · have hrec : (ast_record_var vidx idx).1 =
              vidx.take pos.toNat ++ idx :: vidx.drop pos.toNat := by
            simp only [ast_record_var, hemp2, Bool.false_eq_true, if_false,
              ← hpos, if_neg hpos0, if_neg hmax]
          rw [hrec]
          have hsplit := List.take_append_drop pos.toNat vidx
          constructor
          · intro hw
            rcases List.mem_append.mp hw with hw1 | hw2
            · exact Or.inl (by rw [← hsplit]; exact List.mem_append.mpr (Or.inl hw1))
            · rcases List.mem_cons.mp hw2 with rfl | hw3
              · exact Or.inr rfl
              · exact Or.inl (by rw [← hsplit]; exact List.mem_append.mpr (Or.inr hw3))
          · rintro (hw | rfl)
            · rw [← hsplit] at hw
              rcases List.mem_append.mp hw with hw1 | hw2
              · exact List.mem_append.mpr (Or.inl hw1)
              · exact List.mem_append.mpr (Or.inr (List.mem_cons.mpr (Or.inr hw2)))
            · exact List.mem_append.mpr (Or.inr (List.mem_cons.mpr (Or.inl rfl)))


theorem liveAt_lt (h : Heap) (i : Nat) (n : Node) (hl : liveAt h i n) :
    i < h.length := by
  by_contra hge
  have : List.get? h i = none := List.get?_eq_none.mpr (by omega)
  rw [liveAt, this] at hl
  exact Option.noConfusion hl

theorem readNode_of_liveAt (h : Heap) (i : Nat) (n : Node) (hl : liveAt h i n) :
    readNode h i = n := by
  rw [readNode, hl]
  rfl

theorem liveAt_of_type_ne (h : Heap) (i : Nat)
    (hne : ¬ (readNode h i).type = .UNDEF) : liveAt h i (readNode h i) := by
  rcases hg : List.get? h i with _ | mn
  · rw [readNode, hg] at hne ⊢
    exact absurd rfl hne
  · rcases mn with _ | n
    · rw [readNode, hg] at hne ⊢
      exact absurd rfl hne
    · rw [liveAt, hg, readNode, hg]
      rfl

theorem liveAt_set_self (h : Heap) (i : Nat) (x : Option Node) (n : Node)
    (hi : i < h.length) : liveAt (List.set h i x) i n ↔ x = some n := by
  rw [liveAt, List.get?_eq_getElem?, List.getElem?_set_eq_of_lt _ hi]
  simp

theorem liveAt_set_ne (h : Heap) (i j : Nat) (x : Option Node) (n : Node)
    (hij : i ≠ j) : liveAt (List.set h i x) j n ↔ liveAt h j n := by
  rw [liveAt, liveAt, List.get?_eq_getElem?, List.getElem?_set_ne hij,
    ← List.get?_eq_getElem?]

theorem liveAt_append (h : Heap) (x : Option Node) (j : Nat) (n : Node) :
    liveAt (h ++ [x]) j n ↔ (liveAt h j n ∨ (j = h.length ∧ x = some n)) := by
  constructor
  · intro hl
    have hlen : j < h.length + 1 := by
      have := liveAt_lt _ _ _ hl
      simpa using this
    by_cases hj : j < h.length
    · left
      rwa [liveAt, List.get?_eq_getElem?, List.getElem?_append_left hj,
        ← List.get?_eq_getElem?] at hl
    · right
      have hje : j = h.length := by omega
      subst hje
      rw [liveAt, List.get?_eq_getElem?, List.getElem?_concat_length] at hl
      exact ⟨rfl, Option.some.inj hl⟩
  · rintro (hl | ⟨rfl, rfl⟩)
    · rwa [liveAt, List.get?_eq_getElem?, List.getElem?_append_left (liveAt_lt _ _ _ hl),
        ← List.get?_eq_getElem?]
    · rw [liveAt, List.get?_eq_getElem?, List.getElem?_concat_length]

theorem varInHeap_write_keep (h : Heap) (i : Nat) (m : Node)
    (hty : m.type = (readNode h i).type) (hv : m.value = (readNode h i).value)
    (w : Int) : VarInHeap (writeNode h i m) w ↔ VarInHeap h w := by
  constructor
  · rintro ⟨j, nj, hl, hvar, hval⟩
    by_cases hij : i = j
    · subst hij
      have hjlen : i < h.length := by
        have := liveAt_lt _ _ _ hl
        rwa [writeNode_length] at this
      have hm : nj = m :=
        Option.some.inj ((liveAt_set_self h i (some m) nj hjlen).mp hl).symm
      subst hm
      have hlive : liveAt h i (readNode h i) := by
        apply liveAt_of_type_ne
        rw [← hty]
        intro hu
        rw [hu] at hvar
        exact ast_tok.noConfusion hvar
      exact ⟨i, readNode h i, hlive, hty ▸ hvar, hv ▸ hval⟩
    · exact ⟨j, nj, (liveAt_set_ne h i j (some m) nj hij).mp hl, hvar, hval⟩
  · rintro ⟨j, nj, hl, hvar, hval⟩
    by_cases hij : i = j
    · subst hij
      have hjlen : i < h.length := liveAt_lt _ _ _ hl
      have hrn : readNode h i = nj := readNode_of_liveAt _ _ _ hl
      refine ⟨i, m, (liveAt_set_self h i (some m) m hjlen).mpr rfl, ?_, ?_⟩
      · rw [hty, hrn]
        exact hvar
      · rw [hv, hrn]
        exact hval
    · exact ⟨j, nj, (liveAt_set_ne h i j (some m) nj hij).mpr hl, hvar, hval⟩

theorem varInHeap_write_new (h : Heap) (i : Nat) (m : Node)
    (hold : ∀ n, liveAt h i n → ¬ n.type = .VAR) (hi : i < h.length)
    (w : Int) : VarInHeap (writeNode h i m) w ↔
      (VarInHeap h w ∨ (m.type = .VAR ∧ m.value = w)) := by
  constructor
  · rintro ⟨j, nj, hl, hvar, hval⟩
    by_cases hij : i = j
    · subst hij
      have hm : nj = m :=
        Option.some.inj ((liveAt_set_self h i (some m) nj hi).mp hl).symm
      subst hm
      exact Or.inr ⟨hvar, hval⟩
    · exact Or.inl ⟨j, nj, (liveAt_set_ne h i j (some m) nj hij).mp hl, hvar, hval⟩
  · rintro (⟨j, nj, hl, hvar, hval⟩ | ⟨hvar, hval⟩)
    · by_cases hij : i = j
      · subst hij
        exact absurd hvar (hold nj hl)
      · exact ⟨j, nj, (liveAt_set_ne h i j (some m) nj hij).mpr hl, hvar, hval⟩
    · exact ⟨i, m, (liveAt_set_self h i (some m) m hi).mpr rfl, hvar, hval⟩

theorem varInHeap_append (h : Heap) (x : Node) (w : Int) :
    VarInHeap (h ++ [some x]) w ↔
      (VarInHeap h w ∨ (x.type = .VAR ∧ x.value = w)) := by
  constructor
  · rintro ⟨j, nj, hl, hvar, hval⟩
    rcases (liveAt_append h (some x) j nj).mp hl with hl2 | ⟨rfl, hx⟩
    · exact Or.inl ⟨j, nj, hl2, hvar, hval⟩
    · have : nj = x := (Option.some.inj hx).symm
      subst this
      exact Or.inr ⟨hvar, hval⟩
  · rintro (⟨j, nj, hl, hvar, hval⟩ | ⟨hvar, hval⟩)
    · exact ⟨j, nj, (liveAt_append h (some x) j nj).mpr (Or.inl hl), hvar, hval⟩
    · exact ⟨h.length, x, (liveAt_append h (some x) h.length x).mpr
        (Or.inr ⟨rfl, rfl⟩), hvar, hval⟩

end Libast
namespace Libast

theorem varInHeap_delete (h : Heap) (i : Nat)
    (hp : (readNode h i).type = .PAREN_LEFT) (w : Int) :
    VarInHeap (ast_delete h i) w ↔ VarInHeap h w := by
  have hlive : liveAt h i (readNode h i) := by
    apply liveAt_of_type_ne
    rw [hp]
    intro hc
    exact ast_tok.noConfusion hc
  have hilen : i < h.length := liveAt_lt _ _ _ hlive
  rcases hL : (readNode h i).left with _ | t
  · simp [ast_delete, hL]
  · simp only [ast_delete, hL]
    by_cases hti : t = i
    · subst hti
      constructor
      · rintro ⟨j, nj, hl, hvar, hval⟩
        by_cases hjt : j = t
        · subst hjt
          exfalso
          have hjlen : j < (writeNode h j (spliceNode (readNode h j) (readNode h j))).length := by
            rw [writeNode_length]
            exact hilen
          have := (liveAt_set_self _ j none nj hjlen).mp hl
          exact Option.noConfusion this
        · refine ⟨j, nj, ?_, hvar, hval⟩
          rw [freeNode, liveAt_set_ne _ _ _ _ _ (fun hc => hjt hc.symm)] at hl
          rw [writeNode, liveAt_set_ne _ _ _ _ _ (fun hc => hjt hc.symm)] at hl
          exact hl
      · rintro ⟨j, nj, hl, hvar, hval⟩
        by_cases hjt : j = t
        · subst hjt
          have : readNode h j = nj := readNode_of_liveAt _ _ _ hl
          rw [this] at hp
          rw [hp] at hvar
          exact absurd hvar (by intro hc; exact ast_tok.noConfusion hc)
        · refine ⟨j, nj, ?_, hvar, hval⟩
          rw [freeNode, liveAt_set_ne _ _ _ _ _ (fun hc => hjt hc.symm)]
          rw [writeNode, liveAt_set_ne _ _ _ _ _ (fun hc => hjt hc.symm)]
          exact hl
    · constructor
      · rintro ⟨j, nj, hl, hvar, hval⟩
        by_cases hjt : j = t
        · subst hjt
          exfalso
          by_cases hjl : j < h.length
          · have hjlen : j < (writeNode h i (spliceNode (readNode h i) (readNode h j))).length := by
              rw [writeNode_length]
              exact hjl
            have := (liveAt_set_self _ j none nj hjlen).mp hl
            exact Option.noConfusion this
          · rw [freeNode, List.set_eq_of_length_le (by rw [writeNode_length]; omega)] at hl
            have := liveAt_lt _ _ _ hl
            rw [writeNode_length] at this
            omega
        · rw [freeNode, liveAt_set_ne _ _ _ _ _ (fun hc => hjt hc.symm)] at hl
          by_cases hji : j = i
          · subst hji
            have hm : nj = spliceNode (readNode h j) (readNode h t) :=
              Option.some.inj ((liveAt_set_self h j _ nj hilen).mp hl).symm
            have hvt : (readNode h t).type = .VAR := by
              rw [hm] at hvar
              exact hvar
            have hlt2 : liveAt h t (readNode h t) := by
              apply liveAt_of_type_ne
              rw [hvt]
              intro hc
              exact ast_tok.noConfusion hc
            refine ⟨t, readNode h t, hlt2, hvt, ?_⟩
            rw [hm] at hval
            exact hval
          · refine ⟨j, nj, ?_, hvar, hval⟩
            rw [writeNode, liveAt_set_ne _ _ _ _ _ (fun hc => hji hc.symm)] at hl
            exact hl
      · rintro ⟨j, nj, hl, hvar, hval⟩
        by_cases hji : j = i
        · subst hji
          have : readNode h j = nj := readNode_of_liveAt _ _ _ hl
          rw [this] at hp
          rw [hp] at hvar
          exact absurd hvar (by intro hc; exact ast_tok.noConfusion hc)
        · by_cases hjt : j = t
          · subst hjt
            have hnj : readNode h j = nj := readNode_of_liveAt _ _ _ hl
            refine ⟨i, spliceNode (readNode h i) (readNode h j), ?_, ?_, ?_⟩
            · rw [freeNode, liveAt_set_ne _ _ _ _ _ (fun hc => hti hc)]
              exact (liveAt_set_self h i _ _ hilen).mpr rfl
            · rw [spliceNode, hnj]
              exact hvar
            · rw [spliceNode, hnj]
              exact hval
          · refine ⟨j, nj, ?_, hvar, hval⟩
            rw [freeNode, liveAt_set_ne _ _ _ _ _ (fun hc => hjt hc.symm)]
            rw [writeNode, liveAt_set_ne _ _ _ _ _ (fun hc => hji hc.symm)]
            exact hl


theorem ast_delete_length (h : Heap) (i : Nat) :
    (ast_delete h i).length = h.length := by
  rcases hL : (readNode h i).left with _ | t
  · simp [ast_delete, hL]
  · simp [ast_delete, hL, freeNode, writeNode]

theorem ast_insert_length (h : Heap) (cur : Nat) (tok : ast_tok) (v : Int) :
    (ast_insert h cur tok v).1.length = h.length ∨
    (ast_insert h cur tok v).1.length = h.length + 1 := by
  by_cases hu : (readNode h cur).type = .UNDEF
  · left
    simp [ast_insert, hu, writeNode]
  · right
    simp only [ast_insert, if_neg hu]
    by_cases hb : (ast_tok_attr tok).type = .BOPT
    · simp only [if_pos hb]
      split <;> (try split) <;> simp [writeNode]
    · simp only [if_neg hb]
      split <;> simp [writeNode]

theorem ast_insert_node_lt (h : Heap) (cur : Nat) (tok : ast_tok) (v : Int)
    (hcur : cur < h.length) :
    (ast_insert h cur tok v).2 < (ast_insert h cur tok v).1.length := by
  by_cases hu : (readNode h cur).type = .UNDEF
  · simpa [ast_insert, hu, writeNode] using hcur
  · simp only [ast_insert, if_neg hu]
    by_cases hb : (ast_tok_attr tok).type = .BOPT
    · simp only [if_pos hb]
      split <;> (try split) <;> simp [writeNode]
    · simp only [if_neg hb]
      split <;> simp [writeNode]

theorem varInHeap_insert (h : Heap) (cur : Nat) (tok : ast_tok) (v : Int)
    (hcur : cur < h.length) (w : Int) :
    VarInHeap (ast_insert h cur tok v).1 w ↔
      (VarInHeap h w ∨ (tok = .VAR ∧ w = v)) := by
  by_cases hu : (readNode h cur).type = .UNDEF
  · simp only [ast_insert, if_pos hu]
    rw [varInHeap_write_new h cur _ ?_ hcur w]
    · exact or_congr Iff.rfl (and_congr Iff.rfl eq_comm)
    · intro n hlv
      have hrn := readNode_of_liveAt _ _ _ hlv
      rw [hrn] at hu
      rw [hu]
      intro hc
      exact ast_tok.noConfusion hc
  · simp only [ast_insert, if_neg hu]
    by_cases hb : (ast_tok_attr tok).type = .BOPT
    · simp only [if_pos hb]
      split
      · split <;>
        · rw [varInHeap_write_keep _ _ _ (by rfl) (by rfl),
            varInHeap_write_keep _ _ _ (by rfl) (by rfl),
            varInHeap_write_keep _ _ _ (by rfl) (by rfl), varInHeap_append]
          exact or_congr Iff.rfl (and_congr Iff.rfl eq_comm)
      · rw [varInHeap_write_keep _ _ _ ?_ ?_, varInHeap_write_keep _ _ _ (by rfl) (by rfl),
          varInHeap_append]
        · exact or_congr Iff.rfl (and_congr Iff.rfl eq_comm)
        · by_cases hsn : ast_climb (h ++ [some ⟨tok, v, none, none, none⟩])
              (List.length (h ++ [some ⟨tok, v, none, none, none⟩])) cur
              (ast_tok_attr tok).precedence = h.length
          · rw [hsn, readNode_write_self _ _ _ (by simp [writeNode])]
          · rw [readNode_write_ne _ _ _ _ (fun hc => hsn hc.symm)]
        · by_cases hsn : ast_climb (h ++ [some ⟨tok, v, none, none, none⟩])
              (List.length (h ++ [some ⟨tok, v, none, none, none⟩])) cur
              (ast_tok_attr tok).precedence = h.length
          · rw [hsn, readNode_write_self _ _ _ (by simp [writeNode])]
          · rw [readNode_write_ne _ _ _ _ (fun hc => hsn hc.symm)]
    · simp only [if_neg hb]
      split <;>
      · rw [varInHeap_write_keep _ _ _ (by rfl) (by rfl), varInHeap_write_keep _ _ _ ?_ ?_,
          varInHeap_append]
        · exact or_congr Iff.rfl (and_congr Iff.rfl eq_comm)
        · rw [readNode_append_lt _ _ _ hcur]
        · rw [readNode_append_lt _ _ _ hcur]


end Libast

namespace Libast

theorem VInv_of_eq (st st' : ast_state) (hv : st'.vidx = st.vidx)
    (hh : st'.heap = st.heap) (h : VInv st) : VInv st' := by
  rw [VInv, hv, hh]
  exact h

theorem ast_paren_walk_some (h : Heap) :
    ∀ (fuel n m : Nat), ast_paren_walk h fuel n = some m →
      (readNode h m).type = .PAREN_LEFT ∨
      (ast_tok_attr (readNode h m).type).type = .FUNC := by
  intro fuel
  induction fuel with
  | zero =>
    intro n m hw
    exact Option.noConfusion hw
  | succ f ih =>
    intro n m hw
    rw [ast_paren_walk] at hw
    rcases hq : (readNode h n).parent with _ | p
    · rw [hq] at hw
      exact Option.noConfusion hw
    · rw [hq] at hw
      dsimp only at hw
      by_cases hp : (readNode h p).type = .PAREN_LEFT ∨
          (ast_tok_attr (readNode h p).type).type = .FUNC
      · rw [if_pos hp] at hw
        have : p = m := Option.some.inj hw
        subst this
        exact hp
      · rw [if_neg hp] at hw
        exact ih p m hw

end Libast
namespace Libast

theorem ast_parse_end_post (st : ast_state) (node : Nat) (b : Bool) :
    (ast_parse_end st node b).vidx = st.vidx ∧
    (ast_parse_end st node b).heap = st.heap := by
  rw [ast_parse_end]
  cases b <;> (repeat' split) <;> simp

theorem ast_msg_sel_post (tok : ast_tok) (b : Bool) (st : ast_state) :
    (ast_msg_sel tok b st).vidx = st.vidx ∧
    (ast_msg_sel tok b st).heap = st.heap ∧
    (ast_msg_sel tok b st).errno = st.errno := by
  rw [ast_msg_sel]
  cases b <;> (repeat' split) <;> simp

theorem ast_rparen_step_post (st2 : ast_state) (node : Nat) (nt tok : ast_tok)
    (hnode : node < st2.heap.length) (hinv : VInv st2) :
    (ast_rparen_step st2 node nt tok).1.errno = st2.errno ∧
    (ast_rparen_step st2 node nt tok).2 <
      (ast_rparen_step st2 node nt tok).1.heap.length ∧
    VInv (ast_rparen_step st2 node nt tok).1 := by
  rw [ast_rparen_step]
  by_cases ht : tok = .PAREN_RIGHT
  · rw [if_pos ht]
    by_cases hn : nt = .PAREN_LEFT
    · rw [if_pos hn]
      exact ⟨rfl, hnode, VInv_of_eq _ _ rfl rfl hinv⟩
    · rw [if_neg hn]
      rcases hw : ast_paren_walk st2.heap (st2.heap.length + 1) node with _ | m
      · exact ⟨rfl, hnode, VInv_of_eq _ _ rfl rfl hinv⟩
      · dsimp only
        have hpf := ast_paren_walk_some st2.heap (st2.heap.length + 1) node m hw
        have hmne : ¬ (readNode st2.heap m).type = .UNDEF := by
          rcases hpf with hp | hp
          · rw [hp]
            intro hcon
            exact ast_tok.noConfusion hcon
          · intro hcon
            rw [hcon] at hp
            exact ast_tok_type.noConfusion hp
        have hmlt : m < st2.heap.length :=
          liveAt_lt _ _ _ (liveAt_of_type_ne _ _ hmne)
        by_cases hm : (readNode st2.heap m).type = .PAREN_LEFT
        · rw [if_pos hm]
          refine ⟨rfl, ?_, ?_, ?_⟩
          · dsimp only
            rw [ast_delete_length]
            exact hmlt
          · exact hinv.1
          · intro w
            dsimp only
            rw [varInHeap_delete st2.heap m hm w]
            exact hinv.2 w
        · rw [if_neg hm]
          exact ⟨rfl, hmlt, hinv⟩
  · rw [if_neg ht]
    exact ⟨rfl, hnode, hinv⟩

theorem ast_insert_step_post (st3 : ast_state) (node2 : Nat) (tok : ast_tok)
    (v2 : Int) (hnode : node2 < st3.heap.length) (hinv : VInv st3) :
    (ast_insert_step st3 node2 tok v2).1.errno ≠ 0 ∨
      (VInv (ast_insert_step st3 node2 tok v2).1 ∧
       (ast_insert_step st3 node2 tok v2).2 <
         (ast_insert_step st3 node2 tok v2).1.heap.length ∧
       (ast_insert_step st3 node2 tok v2).1.errno = st3.errno) := by
  rw [ast_insert_step]
  dsimp only
  by_cases htok : tok = .VAR
  · rw [if_pos htok]
    by_cases he : (ast_record_var st3.vidx v2).2 ≠ 0
    · left
      simp only [if_pos he]
      exact he
    · right
      have he0 : (ast_record_var st3.vidx v2).2 = 0 := by
        by_contra hcon
        exact he hcon
      obtain ⟨_, hrs, hrm⟩ := ast_record_var_spec st3.vidx v2 hinv.1
      refine ⟨⟨hrs, ?_⟩, ?_, ?_⟩
      · intro w
        dsimp only
        rw [hrm he0 w, varInHeap_insert st3.heap node2 tok v2 hnode w, htok]
        constructor
        · rintro (hw | rfl)
          · exact Or.inl ((hinv.2 w).mp hw)
          · exact Or.inr ⟨rfl, rfl⟩
        · rintro (hw | ⟨_, rfl⟩)
          · exact Or.inl ((hinv.2 w).mpr hw)
          · exact Or.inr rfl
      · dsimp only
        exact ast_insert_node_lt st3.heap node2 tok v2 hnode
      · dsimp only
        simp only [if_neg he]
  · rw [if_neg htok]
    right
    refine ⟨⟨hinv.1, ?_⟩, ?_, rfl⟩
    · intro w
      dsimp only
      rw [varInHeap_insert st3.heap node2 tok v2 hnode w]
      constructor
      · intro hw
        exact Or.inl ((hinv.2 w).mp hw)
      · rintro (hw | ⟨hvv, _⟩)
        · exact (hinv.2 w).mpr hw
        · exact absurd hvv htok
    · exact ast_insert_node_lt st3.heap node2 tok v2 hnode

end Libast
namespace Libast

theorem parse_token_VInv :
    ∀ (fuel : Nat) (st : ast_state) (node : Nat) (src : List Char),
      (st.errno ≠ 0 ∨ (node < st.heap.length ∧ VInv st)) →
      ((ast_parse_token fuel st node src).errno ≠ 0 ∨
        VInv (ast_parse_token fuel st node src)) := by
  intro fuel
  induction fuel with
  | zero =>
    intro st node src _
    left
    rw [ast_parse_token]
    norm_num [AST_ERR_UNKNOWN]
  | succ f ih =>
    intro st node src hpre
    by_cases herr : st.errno ≠ 0
    · rw [show ast_parse_token (f + 1) st node src = st from by
        rw [ast_parse_token, if_pos herr]]
      exact Or.inl herr
    · obtain ⟨hnode, hinv⟩ := hpre.resolve_left herr
      rw [ast_parse_token, if_neg herr]
      rcases hc : ast_skip_space src with _ | ⟨ch, cs⟩
      · simp only [hc]
        right
        obtain ⟨hv, hh⟩ := ast_parse_end_post st node
          (decide (nodeArgc (readNode st.heap node) <
            (ast_tok_attr (readNode st.heap node).type).argc))
        exact VInv_of_eq st _ hv hh hinv
      · simp only [hc]
        rcases hcl : ast_classify st.dtype
            (decide ((ast_tok_attr (readNode st.heap node).type).argc ≤
              nodeArgc (readNode st.heap node))) (ch :: cs) with ⟨tok, v, c1⟩ | m
        · simp only [hcl]
          obtain ⟨hv2, hh2, he2⟩ := ast_msg_sel_post tok
            (decide ((ast_tok_attr (readNode st.heap node).type).argc ≤
              nodeArgc (readNode st.heap node))) st
          have hinv2 : VInv (ast_msg_sel tok
              (decide ((ast_tok_attr (readNode st.heap node).type).argc ≤
                nodeArgc (readNode st.heap node))) st) :=
            VInv_of_eq st _ hv2 hh2 hinv
          obtain ⟨hpe, hplt, hpinv⟩ := ast_rparen_step_post
            (ast_msg_sel tok
              (decide ((ast_tok_attr (readNode st.heap node).type).argc ≤
                nodeArgc (readNode st.heap node))) st)
            node (readNode st.heap node).type tok
            (by rw [hh2]; exact hnode) hinv2
          by_cases hmsg : (ast_rparen_step
              (ast_msg_sel tok
                (decide ((ast_tok_attr (readNode st.heap node).type).argc ≤
                  nodeArgc (readNode st.heap node))) st)
              node (readNode st.heap node).type tok).1.errMsg.isSome
          · rw [if_pos hmsg]
            left
            norm_num [AST_ERR_TOKEN]
          · rw [if_neg hmsg]
            rcases hnum : (if tok = .NUM then ast_parse_num c1
                else some (v, c1.drop 1)) with _ | vc
            · simp only [hnum]
              left
              norm_num [AST_ERR_TOKEN]
            · simp only [hnum]
              by_cases hprt : tok = .PAREN_RIGHT
              · rw [if_pos hprt]
                apply ih
                right
                exact ⟨hplt, hpinv⟩
              · rw [if_neg hprt]
                apply ih
                rcases ast_insert_step_post _ _ tok vc.1 hplt hpinv with hl | ⟨hsv, hslt, _⟩
                · exact Or.inl hl
                · exact Or.inr ⟨hslt, hsv⟩
        · simp only [hcl]
          left
          norm_num [AST_ERR_TOKEN]

end Libast
namespace Libast

theorem pairwise_le_getLast (l : List Int) (hs : List.Pairwise (· < ·) l)
    (w : Int) (hw : w ∈ l) : w ≤ (l.getLast?).getD 0 := by
  induction l with
  | nil => cases hw
  | cons a t iht =>
    rcases t with _ | ⟨b, t2⟩
    · have hwa : w = a := by simpa using hw
      subst hwa
      simp [List.getLast?]
    · rw [List.getLast?_cons_cons]
      rcases List.mem_cons.mp hw with rfl | hwt
      · have hlast := List.getLast?_eq_getLast_of_ne_nil
          (l := b :: t2) (by simp)
        have hmem := List.getLast_mem (l := b :: t2) (by simp)
        have hlt := (List.pairwise_cons.mp hs).1 _ hmem
        rw [hlast]
        simp only [Option.getD_some]
        omega
      · exact iht (List.pairwise_cons.mp hs).2 hwt

theorem varInHeap_fresh_root (w : Int) :
    ¬ VarInHeap [some nodeDefault] w := by
  rintro ⟨i, n, hl, hvar, _⟩
  have hi : i < 1 := by simpa using liveAt_lt _ _ _ hl
  interval_cases i
  · have : n = nodeDefault := by
      rw [liveAt] at hl
      simpa using hl.symm
    subst this
    exact ast_tok.noConfusion hvar

theorem build_VInv (s : String) (dt : ast_dtype)
    (hz : (ast_build ast_fresh (some s) dt).2 = 0) :
    VInv (ast_build ast_fresh (some s) dt).1 := by
  have hfresh : VInv (⟨dt, [], some 0, [some nodeDefault], 0, none⟩ : ast_state) := by
    constructor
    · exact List.Pairwise.nil
    · intro w
      constructor
      · intro hw
        cases hw
      · intro hw
        exact absurd hw (varInHeap_fresh_root w)
  rw [ast_build] at hz ⊢
  rcases hcs : ast_skip_space s.toList with _ | ⟨ch, cs⟩
  · rw [hcs] at hz
    norm_num [ast_fresh, AST_ERR_STRING] at hz
  · rw [hcs] at hz
    simp only [ast_fresh, List.length_nil, List.nil_append] at hz ⊢
    have hpost := parse_token_VInv ((ch :: cs).length + 1)
      (⟨dt, [], some 0, [some nodeDefault], 0, none⟩ : ast_state) 0 (ch :: cs)
      (Or.inr ⟨by norm_num, hfresh⟩)
    by_cases he : (ast_parse_token ((ch :: cs).length + 1)
        (⟨dt, [], some 0, [some nodeDefault], 0, none⟩ : ast_state) 0
        (ch :: cs)).errno ≠ 0
    · rw [if_pos he] at hz
      exact absurd hz he
    · rw [if_neg he] at hz ⊢
      rcases hpost with hl | hr
      · exact absurd hl he
      · exact ⟨hr.1, hr.2⟩

end Libast
namespace Libast

/-- C7.  Variable-index bookkeeping: `ast_record_var` is a no-op (returning
code 0) when the index is already recorded and keeps the list strictly
sorted; classifying `$d` for a digit `1`-`9` stores the value `d - '1'`
(the index minus one); and after any successful build on a fresh handle
the recorded list is strictly sorted, holds exactly the stored indices of
the live `VAR` nodes of the heap, and its last entry bounds them all and
is itself realized in the heap when the list is non-empty. -/
theorem c7_vidx_sorted :
    (∀ (vidx : List Int) (idx : Int), List.Pairwise (· < ·) vidx → idx ∈ vidx →
      ast_record_var vidx idx = (vidx, 0)) ∧
    (∀ (vidx : List Int) (idx : Int), List.Pairwise (· < ·) vidx →
      List.Pairwise (· < ·) (ast_record_var vidx idx).1) ∧
    (∀ (dt : ast_dtype) (b : Bool) (d : Char) (tl : List Char),
      '1' ≤ d → d ≤ '9' →
      ast_classify dt b ('$' :: d :: tl) =
        .ok .VAR ((d.toNat : Int) - ('1'.toNat : Int)) (d :: tl)) ∧
    (∀ (s : String) (dt : ast_dtype), (ast_build ast_fresh (some s) dt).2 = 0 →
      List.Pairwise (· < ·) (ast_build ast_fresh (some s) dt).1.vidx ∧
      (∀ w, w ∈ (ast_build ast_fresh (some s) dt).1.vidx ↔
        VarInHeap (ast_build ast_fresh (some s) dt).1.heap w) ∧
      (∀ w, VarInHeap (ast_build ast_fresh (some s) dt).1.heap w →
        w ≤ (((ast_build ast_fresh (some s) dt).1.vidx).getLast?).getD 0) ∧
      ((ast_build ast_fresh (some s) dt).1.vidx ≠ [] →
        VarInHeap (ast_build ast_fresh (some s) dt).1.heap
          ((((ast_build ast_fresh (some s) dt).1.vidx).getLast?).getD 0))) := by
  refine ⟨?_, ?_, ?_, ?_⟩
  · intro vidx idx hs hmem
    exact (ast_record_var_spec vidx idx hs).1 hmem
  · intro vidx idx hs
    exact (ast_record_var_spec vidx idx hs).2.1
  · intro dt b d tl h1 h9
    have hp : peek ('$' :: d :: tl) 1 = d := rfl
    rw [ast_classify]
    rw [if_neg (by decide : ¬ ('$').isDigit = true)]
    rw [if_neg ?_]
    rotate_left
    · rintro ⟨hx, _⟩
      exact absurd hx (by decide)
    rw [if_pos (show ('$' : Char) = AST_VAR_FLAG from rfl)]
    rw [if_pos ⟨by rw [hp]; exact h1, by rw [hp]; exact h9⟩]
    rw [hp]
    rfl
  · intro s dt hz
    have hv := build_VInv s dt hz
    refine ⟨hv.1, hv.2, ?_, ?_⟩
    · intro w hw
      exact pairwise_le_getLast _ hv.1 w ((hv.2 w).mpr hw)
    · intro hne
      rw [List.getLast?_eq_getLast_of_ne_nil hne]
      simp only [Option.getD_some]
      exact (hv.2 _).mp (List.getLast_mem hne)

/-- Witness for C7 at concrete inputs: recording a present index `2` into
`[2, 5]` is a no-op, recording `4` keeps sortedness, `$3` classifies to
stored value `2`, and the build of `$3+$\x7b12\x7d` satisfies the sorted
invariant with variable index `11` realized in the heap. -/
theorem c7_witness :
    ast_record_var [2, 5] 2 = ([2, 5], 0) ∧
    List.Pairwise (· < ·) (ast_record_var [2, 5] 4).1 ∧
    ast_classify .LONG true ('$' :: '3' :: []) = .ok .VAR 2 ('3' :: []) ∧
    List.Pairwise (· < ·)
      (ast_build ast_fresh (some "$3+$\x7b12\x7d") .LONG).1.vidx ∧
    VarInHeap (ast_build ast_fresh (some "$3+$\x7b12\x7d") .LONG).1.heap 11 := by
  refine ⟨?_, ?_, ?_, ?_, ?_⟩
  · exact c7_vidx_sorted.1 [2, 5] 2 (by decide) (by decide)
  · exact c7_vidx_sorted.2.1 [2, 5] 4 (by decide)
  · have h3 := c7_vidx_sorted.2.2.1 .LONG true '3' [] (by decide) (by decide)
    simpa using h3
  · exact (c7_vidx_sorted.2.2.2 "$3+$\x7b12\x7d" .LONG (by decide)).1
  · have h4 := (c7_vidx_sorted.2.2.2 "$3+$\x7b12\x7d" .LONG (by decide)).2.2.2
      (by decide)
    exact h4

end Libast
